import Mathlib

set_option linter.unusedSectionVars false

/-!
Shallow embedding of the `rs-a_star` repository (files `src/lib.rs`,
`benches/a_star.rs`) and verification of its specification claims.

The engine `a_star` in `src/lib.rs` is generic over a vertex type `V`
(`Hash + Eq + Vertex2D`) and a graph capability `Graph2D<V>`; costs are
`f64`.  We embed costs as an arbitrary linearly ordered additive type `C`
(instantiated with `ℚ`, and with `ℚ[√2]` for the concrete benchmark grid),
treating the code's `f64` arithmetic as exact arithmetic on ordered values
and `std::f64::INFINITY` as `⊤` in `WithTop C`.

The Rust `HashSet` open list has implementation-defined iteration order;
we model it as a list kept in insertion order (insertion appends, and
`iter()` traverses in list order).  The Rust main `while` loop and the
path-reconstruction `while` loop are modelled with explicit fuel; the
constructor `AStarResult.outOfFuel` marks a run that did not complete
within the given fuel (the Rust code has no such outcome: it simply has
not returned yet).  The allocation-capacity estimates computed from the
start/goal bounding box in `a_star` are omitted: they only size
allocations and have no effect on results.
-/

namespace AStar

/-- Embedding of the trait `Graph2D<V>` from `src/lib.rs` (the four query
operations plus the existence check), with costs in `C` instead of `f64`. -/
structure Graph2D (V : Type) (C : Type) where
  neighbors : V → List V
  path_is_transversable : V → V → Bool
  has_vertex : V → Bool
  heuristic : V → V → C
  travel_cost : V → V → C

/-- Embedding of the private bookkeeping record `NodeInfo` from
`src/lib.rs`; `g_score`/`f_score` are `f64` initialized to `INFINITY`,
modelled as `WithTop C` with default `⊤`. -/
structure NodeInfo (V : Type) (C : Type) where
  parent : Option V
  g_score : WithTop C
  f_score : WithTop C
deriving DecidableEq

variable {V : Type} {C : Type}

/-- Embedding of `NodeInfo::default()`: `parent = None`, both scores `INFINITY`. -/
def NodeInfo.dflt : NodeInfo V C := ⟨none, ⊤, ⊤⟩

/-- The search state of one `a_star` invocation: the `open_list` `HashSet`
(modelled as a list in insertion order) and the `node_info` `HashMap`
(modelled as a function to `Option`, `none` meaning "no entry"). -/
structure SearchState (V : Type) (C : Type) where
  open_list : List V
  node_info : V → Option (NodeInfo V C)

variable [DecidableEq V]

/-- Pointwise insertion into the modelled `HashMap`. -/
def infoInsert (m : V → Option (NodeInfo V C)) (v : V) (i : NodeInfo V C) :
    V → Option (NodeInfo V C) :=
  fun w => if w = v then some i else m w

/-- Embedding of `node_info.entry(v).or_default()`: returns the entry
(creating a default one if absent) together with the possibly-updated map. -/
def entryOrDefault (m : V → Option (NodeInfo V C)) (v : V) :
    NodeInfo V C × (V → Option (NodeInfo V C)) :=
  match m v with
  | some i => (i, m)
  | none => (NodeInfo.dflt, infoInsert m v NodeInfo.dflt)

/-- Embedding of `HashSet::insert` on the open list: a no-op when the
element is already present, otherwise appended (insertion order). -/
def setInsert (l : List V) (v : V) : List V :=
  if v ∈ l then l else l ++ [v]

variable [LinearOrder C] [Add C]

/-- Embedding of the selection fold in `a_star` (`src/lib.rs` lines
136-147): starting from the first element of the open list, fold over the
rest keeping the accumulator when its `f_score` is strictly smaller,
otherwise taking the new element (so ties go to the later element).  The
`entry(..).or_default()` calls thread the map through the fold. -/
def selectFold (m : V → Option (NodeInfo V C)) (acc : V) :
    List V → V × (V → Option (NodeInfo V C))
  | [] => (acc, m)
  | node :: rest =>
    let pa := entryOrDefault m acc
    let pn := entryOrDefault pa.2 node
    if pa.1.f_score < pn.1.f_score then selectFold pn.2 acc rest
    else selectFold pn.2 node rest

/-- Embedding of the path-reconstruction `while` loop in `a_star`
(`src/lib.rs` lines 158-166): follow `parent` back-links while the current
node has an entry, pushing each parent; `fuel` bounds the number of steps
(`none` models a walk that did not finish, i.e. a diverging Rust loop). -/
def reconstructChain (m : V → Option (NodeInfo V C)) :
    Nat → V → List V → Option (List V)
  | 0, _, _ => none
  | fuel + 1, cur, path =>
    match m cur with
    | none => some path
    | some info =>
      match info.parent with
      | some parent => reconstructChain m fuel parent (path ++ [parent])
      | none => some path

/-- Embedding of the goal branch of `a_star` (`src/lib.rs` lines 155-171):
push `cur_node`, walk the parent chain, reverse, and push `goal`. -/
def buildPath (m : V → Option (NodeInfo V C)) (recFuel : Nat) (cur goal : V) :
    Option (List V) :=
  (reconstructChain m recFuel cur [cur]).map (fun p => p.reverse ++ [goal])

/-- Embedding of the neighbor-update step of `a_star` (`src/lib.rs` lines
173-182): compute `new_g` from the current node's `g_score` plus the travel
cost, and when it strictly beats the neighbor's recorded `g_score`
(default `INFINITY`) overwrite the record and insert the neighbor into the
open list. -/
def processNeighbor (g : Graph2D V C) (goal cur neighbor : V)
    (st : SearchState V C) : SearchState V C :=
  let pc := entryOrDefault st.node_info cur
  let new_g : WithTop C := pc.1.g_score + (g.travel_cost cur neighbor : WithTop C)
  let pn := entryOrDefault pc.2 neighbor
  if new_g < pn.1.g_score then
    let new_f : WithTop C := new_g + (g.heuristic neighbor goal : WithTop C)
    { open_list := setInsert st.open_list neighbor,
      node_info := infoInsert pn.2 neighbor ⟨some cur, new_g, new_f⟩ }
  else
    { open_list := st.open_list, node_info := pn.2 }

/-- Embedding of the `for neighbor in &map.neighbors(cur_node)` loop
(`src/lib.rs` lines 149-183): skip non-transversable neighbors, return the
reconstructed path as soon as the goal is met, otherwise run the update
step; `Sum.inl` is the early `break 'list` with the built path (`none`
inside meaning the reconstruction walk did not finish). -/
def expandNeighbors (g : Graph2D V C) (goal cur : V) (recFuel : Nat) :
    List V → SearchState V C → Option (List V) ⊕ SearchState V C
  | [], st => Sum.inr st
  | n :: rest, st =>
    if g.path_is_transversable cur n then
      if n = goal then Sum.inl (buildPath st.node_info recFuel cur goal)
      else expandNeighbors g goal cur recFuel rest (processNeighbor g goal cur n st)
    else expandNeighbors g goal cur recFuel rest st

/-- Result of a run of the embedded `a_star`: `found p` models
`Some(path)`, `noPath` models `None`, and `outOfFuel` marks a run that was
cut off by the fuel bound (it corresponds to a Rust execution that has not
returned yet, not to any Rust return value). -/
inductive AStarResult (V : Type) where
  | found (path : List V)
  | noPath
  | outOfFuel
deriving DecidableEq, Repr

/-- Result of one iteration of the main loop: either the whole call is
done, or the loop continues from a new state. -/
inductive StepResult (V : Type) (C : Type) where
  | done (r : AStarResult V)
  | next (st : SearchState V C)

/-- One iteration of the `'list: while !open_list.is_empty()` loop of
`a_star` (`src/lib.rs` lines 135-184): select the node with the lowest
`f_score` (ties to the later element in iteration order), remove it, and
expand its neighbors. -/
def stepOnce (g : Graph2D V C) (goal : V) (recFuel : Nat)
    (st : SearchState V C) : StepResult V C :=
  match st.open_list with
  | [] => StepResult.done AStarResult.noPath
  | cmp :: rest =>
    let sel := selectFold st.node_info cmp rest
    let opened := st.open_list.erase sel.1
    match expandNeighbors g goal sel.1 recFuel (g.neighbors sel.1)
        ⟨opened, sel.2⟩ with
    | Sum.inl none => StepResult.done AStarResult.outOfFuel
    | Sum.inl (some p) => StepResult.done (AStarResult.found p)
    | Sum.inr next => StepResult.next next

/-- The fueled main loop of `a_star`. -/
def aStarLoop (g : Graph2D V C) (goal : V) (recFuel : Nat) :
    Nat → SearchState V C → AStarResult V
  | 0, _ => AStarResult.outOfFuel
  | fuel + 1, st =>
    match stepOnce g goal recFuel st with
    | StepResult.done r => r
    | StepResult.next st2 => aStarLoop g goal recFuel fuel st2

variable [Zero C]

/-- The initial state of `a_star` (`src/lib.rs` lines 120-133): open list
`{start}`, and `node_info` seeded with
`start ↦ {parent: None, g_score: 0, f_score: heuristic(start, goal)}`. -/
def initState (g : Graph2D V C) (start goal : V) : SearchState V C :=
  { open_list := [start],
    node_info := fun w =>
      if w = start then some ⟨none, (0 : WithTop C), (g.heuristic start goal : WithTop C)⟩
      else none }

/-- Embedding of `pub fn a_star` from `src/lib.rs`, with explicit fuel for
the main loop and for the reconstruction walk. -/
def a_star (g : Graph2D V C) (start goal : V) (fuel recFuel : Nat) :
    AStarResult V :=
  aStarLoop g goal recFuel fuel (initState g start goal)

/-- View of the recorded `g_score` of a point, defaulting to `INFINITY`
(`⊤`) when the point has no bookkeeping record. -/
def gOf (m : V → Option (NodeInfo V C)) (v : V) : WithTop C :=
  ((m v).map NodeInfo.g_score).getD ⊤

/-- View of the recorded `f_score` of a point, defaulting to `INFINITY`. -/
def fOf (m : V → Option (NodeInfo V C)) (v : V) : WithTop C :=
  ((m v).map NodeInfo.f_score).getD ⊤

/-- View of the recorded parent back-link of a point. -/
def parentOf (m : V → Option (NodeInfo V C)) (v : V) : Option V :=
  ((m v).map NodeInfo.parent).getD none

/-- The transition relation between consecutive states of one run of the
main loop (zero or more iterations that did not return). -/
def Steps (g : Graph2D V C) (goal : V) (recFuel : Nat) :
    SearchState V C → SearchState V C → Prop :=
  Relation.ReflTransGen (fun s t => stepOnce g goal recFuel s = StepResult.next t)

/-- The one-step edge relation presented by the capability contract:
`w` is a neighbor of `v` and the step `v → w` is transversable. -/
def Edge (g : Graph2D V C) (v w : V) : Prop :=
  w ∈ g.neighbors v ∧ g.path_is_transversable v w = true

/-- Reachability of the goal from the start through at least one
transversable neighbor step. -/
def Reach (g : Graph2D V C) (start goal : V) : Prop :=
  Relation.TransGen (Edge g) start goal

/-- Total cost of a returned path: the sum of `travel_cost` over
consecutive pairs. -/
def pathCost (g : Graph2D V C) : List V → C
  | [] => 0
  | [_] => 0
  | a :: b :: rest => g.travel_cost a b + pathCost g (b :: rest)

end AStar

namespace AStar

/-- The computable quadratic ring `ℤ[√2]`, used as the exact cost type for
the benchmark grid, whose travel costs are euclidean distances (`1` or `√2`
between neighboring cells) and whose heuristic values are integer chebyshev
distances: the value `ra + rb·√2`.  Integer components are used so that all
grid computations reduce inside the kernel. -/
@[ext]
structure Q2 where
  ra : ℤ
  rb : ℤ
deriving DecidableEq, Repr

namespace Q2

/-- Semantics of a `Q2` value as a real number. -/
noncomputable def toReal (x : Q2) : ℝ := (x.ra : ℝ) + (x.rb : ℝ) * Real.sqrt 2

/-- Computable comparison on `ℤ[√2]`: decides `x.ra + x.rb√2 ≤ y.ra + y.rb√2`
by sign analysis and squaring. -/
def leB (x y : Q2) : Bool :=
  let p := y.ra - x.ra
  let q := x.rb - y.rb
  if 0 ≤ q then decide (0 ≤ p) && decide (2 * q ^ 2 ≤ p ^ 2)
  else decide (0 ≤ p) || decide (p ^ 2 ≤ 2 * q ^ 2)

theorem leB_iff (x y : Q2) : leB x y = true ↔ toReal x ≤ toReal y := by
  have h2 : (0 : ℝ) ≤ Real.sqrt 2 := Real.sqrt_nonneg 2
  have hsq : Real.sqrt 2 ^ 2 = 2 := Real.sq_sqrt (by norm_num)
  have key : toReal x ≤ toReal y ↔
      ((x.rb : ℝ) - (y.rb : ℝ)) * Real.sqrt 2 ≤ (y.ra : ℝ) - (x.ra : ℝ) := by
    unfold toReal; constructor <;> intro h <;> nlinarith [h]
  have hq2 : (((x.rb - y.rb : ℤ) : ℝ)) = (x.rb : ℝ) - (y.rb : ℝ) := by push_cast; ring
  have hp2 : (((y.ra - x.ra : ℤ) : ℝ)) = (y.ra : ℝ) - (x.ra : ℝ) := by push_cast; ring
  rw [key, ← hq2, ← hp2]
  set q : ℤ := x.rb - y.rb with hq
  set p : ℤ := y.ra - x.ra with hp
  unfold leB
  rw [← hq, ← hp]
  by_cases hqs : (0 : ℤ) ≤ q
  · simp only [hqs, if_true, Bool.and_eq_true, decide_eq_true_eq]
    constructor
    · rintro ⟨hps, hsqle⟩
      have hps' : (0 : ℝ) ≤ ((p : ℤ) : ℝ) := by exact_mod_cast hps
      have h1 : ((q : ℝ) * Real.sqrt 2) ^ 2 ≤ ((p : ℤ) : ℝ) ^ 2 := by
        have : ((2 * q ^ 2 : ℤ) : ℝ) ≤ ((p ^ 2 : ℤ) : ℝ) := by exact_mod_cast hsqle
        push_cast at this
        calc ((q : ℝ) * Real.sqrt 2) ^ 2 = (q : ℝ) ^ 2 * Real.sqrt 2 ^ 2 := by ring
        _ = 2 * (q : ℝ) ^ 2 := by rw [hsq]; ring
        _ ≤ ((p : ℤ) : ℝ) ^ 2 := by linarith
      exact le_of_pow_le_pow_left₀ two_ne_zero hps' h1
    · intro hle
      have hqs' : (0 : ℝ) ≤ (q : ℝ) := by exact_mod_cast hqs
      have hmul : (0 : ℝ) ≤ (q : ℝ) * Real.sqrt 2 := mul_nonneg hqs' h2
      have hps' : (0 : ℝ) ≤ (p : ℝ) := le_trans hmul hle
      refine ⟨by exact_mod_cast hps', ?_⟩
      have h1 : ((q : ℝ) * Real.sqrt 2) ^ 2 ≤ (p : ℝ) ^ 2 :=
        pow_le_pow_left₀ hmul hle 2
      have h3 : 2 * (q : ℝ) ^ 2 ≤ (p : ℝ) ^ 2 := by nlinarith [h1, hsq]
      exact_mod_cast h3
  · push_neg at hqs
    simp only [if_neg (not_le.mpr hqs), Bool.or_eq_true, decide_eq_true_eq]
    have hqs' : (q : ℝ) < 0 := by exact_mod_cast hqs
    have hmul : (q : ℝ) * Real.sqrt 2 ≤ 0 :=
      mul_nonpos_of_nonpos_of_nonneg (le_of_lt hqs') h2
    constructor
    · rintro (hps | hsqle)
      · have : (0 : ℝ) ≤ (p : ℝ) := by exact_mod_cast hps
        linarith
      · by_cases hps : (0 : ℤ) ≤ p
        · have : (0 : ℝ) ≤ (p : ℝ) := by exact_mod_cast hps
          linarith
        · push_neg at hps
          have hps' : (p : ℝ) < 0 := by exact_mod_cast hps
          have h1 : ((p ^ 2 : ℤ) : ℝ) ≤ ((2 * q ^ 2 : ℤ) : ℝ) := by exact_mod_cast hsqle
          push_cast at h1
          have h4 : (-(p : ℝ)) ^ 2 ≤ (-((q : ℝ) * Real.sqrt 2)) ^ 2 := by nlinarith [hsq]
          have h5 : -(p : ℝ) ≤ -((q : ℝ) * Real.sqrt 2) :=
            le_of_pow_le_pow_left₀ two_ne_zero (by linarith) h4
          linarith
    · intro hle
      by_cases hps : (0 : ℤ) ≤ p
      · exact Or.inl hps
      · push_neg at hps
        have hps' : (p : ℝ) < 0 := by exact_mod_cast hps
        refine Or.inr ?_
        have h4 : (-(p : ℝ)) ^ 2 ≤ (-((q : ℝ) * Real.sqrt 2)) ^ 2 :=
          pow_le_pow_left₀ (by linarith) (by linarith) 2
        have h5 : (p : ℝ) ^ 2 ≤ 2 * (q : ℝ) ^ 2 := by nlinarith [hsq]
        exact_mod_cast h5

theorem toReal_injective : Function.Injective toReal := by
  intro x y h
  unfold toReal at h
  have hb : x.rb = y.rb := by
    by_contra hne
    have hd : (x.rb : ℝ) - (y.rb : ℝ) ≠ 0 := by
      refine sub_ne_zero.mpr ?_
      exact_mod_cast hne
    have hs : Real.sqrt 2 = ((y.ra : ℝ) - (x.ra : ℝ)) / ((x.rb : ℝ) - (y.rb : ℝ)) := by
      field_simp
      linarith
    have hs2 : Real.sqrt 2 =
        ((((y.ra - x.ra : ℤ) : ℚ) / ((x.rb - y.rb : ℤ) : ℚ) : ℚ) : ℝ) := by
      rw [hs]; push_cast; ring
    exact irrational_sqrt_two ⟨_, hs2.symm⟩
  have ha : x.ra = y.ra := by
    rw [hb] at h
    have : (x.ra : ℝ) = (y.ra : ℝ) := by linarith
    exact_mod_cast this
  ext <;> assumption

instance : LinearOrder Q2 where
  le x y := leB x y = true
  le_refl x := (leB_iff x x).mpr le_rfl
  le_trans x y z hxy hyz :=
    (leB_iff x z).mpr (le_trans ((leB_iff x y).mp hxy) ((leB_iff y z).mp hyz))
  le_antisymm x y hxy hyx :=
    toReal_injective (le_antisymm ((leB_iff x y).mp hxy) ((leB_iff y x).mp hyx))
  le_total x y := by
    rcases le_total (toReal x) (toReal y) with h | h
    · exact Or.inl ((leB_iff x y).mpr h)
    · exact Or.inr ((leB_iff y x).mpr h)
  decidableLE x y := inferInstanceAs (Decidable (leB x y = true))

theorem le_iff_toReal (x y : Q2) : x ≤ y ↔ toReal x ≤ toReal y := leB_iff x y

instance : Zero Q2 := ⟨⟨0, 0⟩⟩

instance : Add Q2 := ⟨fun a b => ⟨a.ra + b.ra, a.rb + b.rb⟩⟩

@[simp] theorem zero_ra : (0 : Q2).ra = 0 := rfl

@[simp] theorem zero_rb : (0 : Q2).rb = 0 := rfl

@[simp] theorem add_ra (a b : Q2) : (a + b).ra = a.ra + b.ra := rfl

@[simp] theorem add_rb (a b : Q2) : (a + b).rb = a.rb + b.rb := rfl

instance : AddZeroClass Q2 where
  zero_add a := by ext <;> simp
  add_zero a := by ext <;> simp

end Q2

end AStar

namespace AStar

/-- Embedding of the benchmark vertex type `Node` from `benches/a_star.rs`:
grid coordinates (`usize`, modelled as `ℕ`) plus a wall flag.  Equality is
full structural equality, as in the derived Rust `PartialEq`. -/
structure Node where
  x : ℕ
  y : ℕ
  is_wall : Bool
deriving DecidableEq, Repr

/-- Embedding of the benchmark grid type `D2Q9` from `benches/a_star.rs`:
a row-major rectangular grid of nodes. -/
structure D2Q9 where
  grid : List (List Node)
deriving Repr

namespace D2Q9

/-- Embedding of `D2Q9::new(width, height, is_wall)`. -/
def new (width height : ℕ) (is_wall : ℕ → ℕ → Bool) : D2Q9 :=
  ⟨(List.range height).map fun y =>
    (List.range width).map fun x => Node.mk x y (is_wall x y)⟩

/-- Embedding of `D2Q9::get_at(x, y)`: row `y`, then column `x`. -/
def get_at (g : D2Q9) (x y : ℕ) : Option Node :=
  (g.grid.get? y).bind fun row => row.get? x

/-- Resolution of one `(dx, dy)` offset in `D2Q9::neighbors`: the Rust
macro computes `coord + delta - 1` with checked arithmetic (skipping on
underflow) and then looks the cell up, skipping when absent. -/
def resolveNb (g : D2Q9) (v : Node) (dx dy : ℕ) : List Node :=
  match v.x + dx, v.y + dy with
  | x + 1, y + 1 => (g.get_at x y).toList
  | _, _ => []

/-- Embedding of `D2Q9::neighbors`: the eight `(dx, dy)` offsets in the
Rust loop order (`dy` outer from 0 to 2, `dx` inner from 0 to 2, skipping
`dx == dy == 1`). -/
def neighbors (g : D2Q9) (v : Node) : List Node :=
  resolveNb g v 0 0 ++ resolveNb g v 1 0 ++ resolveNb g v 2 0 ++
  resolveNb g v 0 1 ++ resolveNb g v 2 1 ++
  resolveNb g v 0 2 ++ resolveNb g v 1 2 ++ resolveNb g v 2 2

/-- Embedding of `D2Q9::path_is_transversable` from `benches/a_star.rs`:
a node is transversable to itself; walls block; orthogonal unit steps are
allowed; a diagonal unit step is allowed when at least one of its two
flanking orthogonal cells exists and is not a wall (the benchmark uses
`||` between the two flank checks).  The Rust `as usize` cast of the
possibly-negative flank coordinate saturates at zero, modelled by
`Int.toNat`. -/
def path_is_transversable (g : D2Q9) (a b : Node) : Bool :=
  if a = b then true
  else if a.is_wall || b.is_wall then false
  else
    let dist_x : ℤ := (b.x : ℤ) - (a.x : ℤ)
    let dist_y : ℤ := (b.y : ℤ) - (a.y : ℤ)
    if (a.x = b.x ∧ dist_y.natAbs = 1) ∨ (a.y = b.y ∧ dist_x.natAbs = 1) then true
    else if dist_x.natAbs = dist_y.natAbs ∧ dist_x.natAbs = 1 then
      decide ((g.get_at a.x ((a.y : ℤ) + dist_y).toNat).map Node.is_wall = some false) ||
      decide ((g.get_at ((a.x : ℤ) + dist_x).toNat a.y).map Node.is_wall = some false)
    else false

/-- Chebyshev distance from `Vertex2D::chebyshev_distance` on `Node`
coordinates (exact, since grid coordinates are small integers). -/
def chebyshev (a b : Node) : ℤ :=
  max |(b.x : ℤ) - (a.x : ℤ)| |(b.y : ℤ) - (a.y : ℤ)|

/-- Exact square root of a natural number inside `ℚ[√2]`.  It is exact
whenever the input is a perfect square or twice a perfect square, which
covers every value of `Δx² + Δy²` the engine ever queries on the grid
(`travel_cost` is only called on neighboring cells, whose coordinates
differ by at most one per axis, giving 0, 1 or 2). -/
def sqrtQ2 (s : ℕ) : Q2 :=
  match s with
  | 0 => ⟨0, 0⟩
  | 1 => ⟨1, 0⟩
  | 2 => ⟨0, 1⟩
  | s =>
    if Nat.sqrt s * Nat.sqrt s = s then ⟨(Nat.sqrt s : ℤ), 0⟩
    else if 2 * (Nat.sqrt (s / 2) * Nat.sqrt (s / 2)) = s then ⟨0, (Nat.sqrt (s / 2) : ℤ)⟩
    else ⟨0, 0⟩

/-- Euclidean distance from `Vertex2D::euclidean_distance` on `Node`
coordinates, valued in `ℚ[√2]`. -/
def euclid (a b : Node) : Q2 :=
  sqrtQ2 (((b.x : ℤ) - (a.x : ℤ)).natAbs ^ 2 + ((b.y : ℤ) - (a.y : ℤ)).natAbs ^ 2)

/-- The `Graph2D<Node>` capability implementation of `D2Q9` from
`benches/a_star.rs`: chebyshev heuristic, euclidean travel cost. -/
def toGraph (g : D2Q9) : Graph2D Node Q2 where
  neighbors := g.neighbors
  path_is_transversable := g.path_is_transversable
  has_vertex := fun n => (g.get_at n.x n.y).isSome
  heuristic := fun a b => ⟨chebyshev a b, 0⟩
  travel_cost := euclid

end D2Q9

end AStar

namespace AStar

section Lemmas

variable {V : Type} {C : Type} [DecidableEq V] [LinearOrder C] [Add C]

theorem infoInsert_self (m : V → Option (NodeInfo V C)) (v : V) (i : NodeInfo V C) :
    infoInsert m v i v = some i := by
  simp [infoInsert]

theorem infoInsert_ne (m : V → Option (NodeInfo V C)) (v : V) (i : NodeInfo V C)
    {w : V} (h : w ≠ v) : infoInsert m v i w = m w := by
  simp [infoInsert, h]

theorem entryOrDefault_some {m : V → Option (NodeInfo V C)} {v : V}
    {i : NodeInfo V C} (h : m v = some i) : entryOrDefault m v = (i, m) := by
  simp [entryOrDefault, h]

theorem entryOrDefault_fst_f (m : V → Option (NodeInfo V C)) (v : V) :
    (entryOrDefault m v).1.f_score = fOf m v := by
  unfold entryOrDefault fOf
  cases h : m v <;> simp [h, NodeInfo.dflt]

theorem entryOrDefault_fst_g (m : V → Option (NodeInfo V C)) (v : V) :
    (entryOrDefault m v).1.g_score = gOf m v := by
  unfold entryOrDefault gOf
  cases h : m v <;> simp [h, NodeInfo.dflt]

theorem entryOrDefault_gOf (m : V → Option (NodeInfo V C)) (v w : V) :
    gOf (entryOrDefault m v).2 w = gOf m w := by
  unfold entryOrDefault
  cases h : m v with
  | some i => simp
  | none =>
    simp only [gOf]
    by_cases hw : w = v
    · subst hw; rw [infoInsert_self]; simp [h, NodeInfo.dflt]
    · rw [infoInsert_ne _ _ _ hw]

theorem entryOrDefault_fOf (m : V → Option (NodeInfo V C)) (v w : V) :
    fOf (entryOrDefault m v).2 w = fOf m w := by
  unfold entryOrDefault
  cases h : m v with
  | some i => simp
  | none =>
    simp only [fOf]
    by_cases hw : w = v
    · subst hw; rw [infoInsert_self]; simp [h, NodeInfo.dflt]
    · rw [infoInsert_ne _ _ _ hw]

theorem selectFold_map_eq (m : V → Option (NodeInfo V C)) (acc : V) (l : List V)
    (hacc : (m acc).isSome) (hl : ∀ v ∈ l, (m v).isSome) :
    (selectFold m acc l).2 = m := by
  induction l generalizing acc with
  | nil => rfl
  | cons node rest ih =>
    obtain ⟨ia, hia⟩ := Option.isSome_iff_exists.mp hacc
    obtain ⟨inode, hinode⟩ := Option.isSome_iff_exists.mp (hl node (by simp))
    rw [selectFold]
    simp only [entryOrDefault_some hia, entryOrDefault_some hinode]
    by_cases hc : ia.f_score < inode.f_score
    · simp only [if_pos hc]
      exact ih acc hacc (fun v hv => hl v (by simp [hv]))
    · simp only [if_neg hc]
      exact ih node (by simp [hinode]) (fun v hv => hl v (by simp [hv]))

theorem selectFold_fOf (m : V → Option (NodeInfo V C)) (acc : V) (l : List V)
    (w : V) : fOf (selectFold m acc l).2 w = fOf m w := by
  induction l generalizing m acc with
  | nil => rfl
  | cons node rest ih =>
    rw [selectFold]
    by_cases hc : ((entryOrDefault m acc).1.f_score <
        (entryOrDefault (entryOrDefault m acc).2 node).1.f_score)
    · simp only [if_pos hc]
      rw [ih, entryOrDefault_fOf, entryOrDefault_fOf]
    · simp only [if_neg hc]
      rw [ih, entryOrDefault_fOf, entryOrDefault_fOf]

theorem selectFold_mem (m : V → Option (NodeInfo V C)) (acc : V) (l : List V) :
    (selectFold m acc l).1 = acc ∨ (selectFold m acc l).1 ∈ l := by
  induction l generalizing m acc with
  | nil => exact Or.inl rfl
  | cons node rest ih =>
    rw [selectFold]
    by_cases hc : ((entryOrDefault m acc).1.f_score <
        (entryOrDefault (entryOrDefault m acc).2 node).1.f_score)
    · simp only [if_pos hc]
      rcases ih (entryOrDefault (entryOrDefault m acc).2 node).2 acc with h | h
      · exact Or.inl h
      · exact Or.inr (by simp [h])
    · simp only [if_neg hc]
      rcases ih (entryOrDefault (entryOrDefault m acc).2 node).2 node with h | h
      · exact Or.inr (by simp [h])
      · exact Or.inr (by simp [h])

theorem selectFold_min (m : V → Option (NodeInfo V C)) (acc : V) (l : List V) :
    ∀ v ∈ acc :: l, fOf m (selectFold m acc l).1 ≤ fOf m v := by
  induction l generalizing m acc with
  | nil =>
    intro v hv
    rcases List.mem_singleton.mp hv with rfl
    exact le_rfl
  | cons node rest ih =>
    intro v hv
    rw [selectFold]
    have hfacc : (entryOrDefault m acc).1.f_score = fOf m acc :=
      entryOrDefault_fst_f m acc
    have hfnode : (entryOrDefault (entryOrDefault m acc).2 node).1.f_score
        = fOf m node := by
      rw [entryOrDefault_fst_f, entryOrDefault_fOf]
    set m2 := (entryOrDefault (entryOrDefault m acc).2 node).2 with hm2
    have hview : ∀ w, fOf m2 w = fOf m w := by
      intro w; rw [hm2, entryOrDefault_fOf, entryOrDefault_fOf]
    by_cases hc : ((entryOrDefault m acc).1.f_score <
        (entryOrDefault (entryOrDefault m acc).2 node).1.f_score)
    · simp only [if_pos hc]
      have hmin := ih m2 acc
      have hsel : ∀ w ∈ acc :: rest, fOf m (selectFold m2 acc rest).1 ≤ fOf m w := by
        intro w hw
        have := hmin w hw
        rw [hview, hview] at this
        exact this
      rcases hv with _ | ⟨_, hv2⟩
      · exact hsel acc (by simp)
      · rcases hv2 with _ | ⟨_, hv3⟩
        · calc fOf m (selectFold m2 acc rest).1 ≤ fOf m acc := hsel acc (by simp)
          _ ≤ fOf m node := by
            rw [hfacc, hfnode] at hc; exact le_of_lt hc
        · exact hsel _ (List.mem_cons_of_mem _ hv3)
    · simp only [if_neg hc]
      have hmin := ih m2 node
      have hsel : ∀ w ∈ node :: rest, fOf m (selectFold m2 node rest).1 ≤ fOf m w := by
        intro w hw
        have := hmin w hw
        rw [hview, hview] at this
        exact this
      rcases hv with _ | ⟨_, hv2⟩
      · calc fOf m (selectFold m2 node rest).1 ≤ fOf m node := hsel node (by simp)
        _ ≤ fOf m acc := by
          rw [hfacc, hfnode] at hc; exact le_of_not_lt hc
      · rcases hv2 with _ | ⟨_, hv3⟩
        · exact hsel node (by simp)
        · exact hsel _ (List.mem_cons_of_mem _ hv3)

end Lemmas

end AStar

namespace AStar

section StepLemmas

variable {V : Type} {C : Type} [DecidableEq V] [LinearOrder C] [Add C]

theorem entryOrDefault_parentOf (m : V → Option (NodeInfo V C)) (v w : V) :
    parentOf (entryOrDefault m v).2 w = parentOf m w := by
  unfold entryOrDefault
  cases h : m v with
  | some i => simp
  | none =>
    simp only [parentOf]
    by_cases hw : w = v
    · subst hw; rw [infoInsert_self]; simp [h, NodeInfo.dflt]
    · rw [infoInsert_ne _ _ _ hw]

theorem selectFold_gOf (m : V → Option (NodeInfo V C)) (acc : V) (l : List V)
    (w : V) : gOf (selectFold m acc l).2 w = gOf m w := by
  induction l generalizing m acc with
  | nil => rfl
  | cons node rest ih =>
    rw [selectFold]
    by_cases hc : ((entryOrDefault m acc).1.f_score <
        (entryOrDefault (entryOrDefault m acc).2 node).1.f_score)
    · simp only [if_pos hc]
      rw [ih, entryOrDefault_gOf, entryOrDefault_gOf]
    · simp only [if_neg hc]
      rw [ih, entryOrDefault_gOf, entryOrDefault_gOf]

/-- Unfolding lemma for `processNeighbor` (the `let`s zeta-reduce). -/
theorem processNeighbor_def (g : Graph2D V C) (goal cur n : V)
    (st : SearchState V C) :
    processNeighbor g goal cur n st =
      (if (entryOrDefault st.node_info cur).1.g_score + (g.travel_cost cur n : WithTop C) <
          (entryOrDefault (entryOrDefault st.node_info cur).2 n).1.g_score then
        { open_list := setInsert st.open_list n,
          node_info := infoInsert (entryOrDefault (entryOrDefault st.node_info cur).2 n).2 n
            ⟨some cur,
             (entryOrDefault st.node_info cur).1.g_score + (g.travel_cost cur n : WithTop C),
             (entryOrDefault st.node_info cur).1.g_score + (g.travel_cost cur n : WithTop C)
               + (g.heuristic n goal : WithTop C)⟩ }
      else { open_list := st.open_list,
             node_info := (entryOrDefault (entryOrDefault st.node_info cur).2 n).2 }) := rfl

/-- The update guard of `processNeighbor`, rewritten through the views:
`tentative_g < g_score[neighbor]` with the `+∞` default. -/
theorem processNeighbor_guard (g : Graph2D V C) (goal cur n : V)
    (st : SearchState V C) :
    ((entryOrDefault st.node_info cur).1.g_score + (g.travel_cost cur n : WithTop C) <
        (entryOrDefault (entryOrDefault st.node_info cur).2 n).1.g_score) =
    (gOf st.node_info cur + (g.travel_cost cur n : WithTop C) < gOf st.node_info n) := by
  rw [entryOrDefault_fst_g, entryOrDefault_fst_g, entryOrDefault_gOf]

theorem processNeighbor_open_eq (g : Graph2D V C) (goal cur n : V)
    (st : SearchState V C) :
    (processNeighbor g goal cur n st).open_list =
      if gOf st.node_info cur + (g.travel_cost cur n : WithTop C) < gOf st.node_info n
      then setInsert st.open_list n else st.open_list := by
  rw [processNeighbor_def]
  by_cases h : (gOf st.node_info cur + (g.travel_cost cur n : WithTop C) < gOf st.node_info n)
  · rw [if_pos h, if_pos (by rw [processNeighbor_guard g goal cur n st]; exact h)]
  · rw [if_neg h, if_neg (by rw [processNeighbor_guard g goal cur n st]; exact h)]

theorem processNeighbor_info_pos (g : Graph2D V C) (goal cur n : V)
    (st : SearchState V C)
    (h : gOf st.node_info cur + (g.travel_cost cur n : WithTop C) < gOf st.node_info n) :
    (processNeighbor g goal cur n st).node_info n =
      some ⟨some cur, gOf st.node_info cur + (g.travel_cost cur n : WithTop C),
            gOf st.node_info cur + (g.travel_cost cur n : WithTop C)
              + (g.heuristic n goal : WithTop C)⟩ := by
  rw [processNeighbor_def, if_pos (by rw [processNeighbor_guard g goal cur n st]; exact h)]
  simp only
  rw [entryOrDefault_fst_g, infoInsert_self]

theorem processNeighbor_gOf_ne (g : Graph2D V C) (goal cur n : V)
    (st : SearchState V C) {w : V} (hw : w ≠ n) :
    gOf (processNeighbor g goal cur n st).node_info w = gOf st.node_info w := by
  rw [processNeighbor_def]
  by_cases h : ((entryOrDefault st.node_info cur).1.g_score + (g.travel_cost cur n : WithTop C) <
      (entryOrDefault (entryOrDefault st.node_info cur).2 n).1.g_score)
  · rw [if_pos h]
    simp only [gOf]
    rw [infoInsert_ne _ _ _ hw]
    have := entryOrDefault_gOf (entryOrDefault st.node_info cur).2 n w
    have h2 := entryOrDefault_gOf st.node_info cur w
    simp only [gOf] at this h2
    rw [this, h2]
  · rw [if_neg h]
    simp only
    have := entryOrDefault_gOf (entryOrDefault st.node_info cur).2 n w
    have h2 := entryOrDefault_gOf st.node_info cur w
    simp only [gOf] at this h2
    simp only [gOf]
    rw [this, h2]

theorem processNeighbor_gOf_neg (g : Graph2D V C) (goal cur n : V)
    (st : SearchState V C)
    (h : ¬ gOf st.node_info cur + (g.travel_cost cur n : WithTop C) < gOf st.node_info n)
    (w : V) :
    gOf (processNeighbor g goal cur n st).node_info w = gOf st.node_info w := by
  rw [processNeighbor_def, if_neg (by rw [processNeighbor_guard g goal cur n st]; exact h)]
  simp only [gOf]
  have := entryOrDefault_gOf (entryOrDefault st.node_info cur).2 n w
  have h2 := entryOrDefault_gOf st.node_info cur w
  simp only [gOf] at this h2
  rw [this, h2]

theorem processNeighbor_gOf_le (g : Graph2D V C) (goal cur n : V)
    (st : SearchState V C) (w : V) :
    gOf (processNeighbor g goal cur n st).node_info w ≤ gOf st.node_info w := by
  by_cases h : (gOf st.node_info cur + (g.travel_cost cur n : WithTop C) < gOf st.node_info n)
  · by_cases hw : w = n
    · rw [hw]
      simp only [gOf]
      rw [processNeighbor_info_pos g goal cur n st h]
      exact le_of_lt h
    · rw [processNeighbor_gOf_ne g goal cur n st hw]
  · rw [processNeighbor_gOf_neg g goal cur n st h]

theorem expandNeighbors_inr_gOf_le (g : Graph2D V C) (goal cur : V) (rf : Nat)
    (l : List V) (st st2 : SearchState V C)
    (h : expandNeighbors g goal cur rf l st = Sum.inr st2) (w : V) :
    gOf st2.node_info w ≤ gOf st.node_info w := by
  induction l generalizing st with
  | nil =>
    rw [expandNeighbors] at h
    cases h
    exact le_rfl
  | cons n rest ih =>
    rw [expandNeighbors] at h
    by_cases ht : g.path_is_transversable cur n
    · rw [if_pos ht] at h
      by_cases hg : n = goal
      · rw [if_pos hg] at h
        cases h
      · rw [if_neg hg] at h
        exact le_trans (ih _ h) (processNeighbor_gOf_le g goal cur n st w)
    · rw [if_neg ht] at h
      exact ih _ h

theorem stepOnce_next_gOf_le (g : Graph2D V C) (goal : V) (rf : Nat)
    (st st2 : SearchState V C)
    (h : stepOnce g goal rf st = StepResult.next st2) (w : V) :
    gOf st2.node_info w ≤ gOf st.node_info w := by
  unfold stepOnce at h
  cases hop : st.open_list with
  | nil => rw [hop] at h; cases h
  | cons cmp rest =>
    rw [hop] at h
    simp only at h
    cases hex : expandNeighbors g goal (selectFold st.node_info cmp rest).1 rf
        (g.neighbors (selectFold st.node_info cmp rest).1)
        ⟨(cmp :: rest).erase (selectFold st.node_info cmp rest).1,
         (selectFold st.node_info cmp rest).2⟩ with
    | inl r =>
      rw [hex] at h
      cases r with
      | none => simp at h
      | some p => simp at h
    | inr st3 =>
      rw [hex] at h
      cases h
      have h1 := expandNeighbors_inr_gOf_le g goal (selectFold st.node_info cmp rest).1 rf
        (g.neighbors (selectFold st.node_info cmp rest).1) _ st2 hex w
      calc gOf st2.node_info w
          ≤ gOf (selectFold st.node_info cmp rest).2 w := h1
        _ = gOf st.node_info w := selectFold_gOf st.node_info cmp rest w

theorem steps_gOf_mono (g : Graph2D V C) (goal : V) (rf : Nat)
    (st st2 : SearchState V C) (h : Steps g goal rf st st2) (w : V) :
    gOf st2.node_info w ≤ gOf st.node_info w := by
  induction h with
  | refl => exact le_rfl
  | tail _ hstep ih =>
    exact le_trans (stepOnce_next_gOf_le g goal rf _ _ hstep w) ih

end StepLemmas

end AStar

namespace AStar

section InvLemmas

variable {V : Type} {C : Type} [DecidableEq V] [LinearOrder C] [Add C]

theorem setInsert_mem_self (l : List V) (v : V) : v ∈ setInsert l v := by
  unfold setInsert
  by_cases h : v ∈ l
  · rwa [if_pos h]
  · rw [if_neg h]; simp

theorem processNeighbor_fOf_neg (g : Graph2D V C) (goal cur n : V)
    (st : SearchState V C)
    (h : ¬ gOf st.node_info cur + (g.travel_cost cur n : WithTop C) < gOf st.node_info n)
    (w : V) :
    fOf (processNeighbor g goal cur n st).node_info w = fOf st.node_info w := by
  rw [processNeighbor_def, if_neg (by rw [processNeighbor_guard g goal cur n st]; exact h)]
  simp only [fOf]
  have := entryOrDefault_fOf (entryOrDefault st.node_info cur).2 n w
  have h2 := entryOrDefault_fOf st.node_info cur w
  simp only [fOf] at this h2
  rw [this, h2]

theorem processNeighbor_parentOf_neg (g : Graph2D V C) (goal cur n : V)
    (st : SearchState V C)
    (h : ¬ gOf st.node_info cur + (g.travel_cost cur n : WithTop C) < gOf st.node_info n)
    (w : V) :
    parentOf (processNeighbor g goal cur n st).node_info w = parentOf st.node_info w := by
  rw [processNeighbor_def, if_neg (by rw [processNeighbor_guard g goal cur n st]; exact h)]
  simp only [parentOf]
  have := entryOrDefault_parentOf (entryOrDefault st.node_info cur).2 n w
  have h2 := entryOrDefault_parentOf st.node_info cur w
  simp only [parentOf] at this h2
  rw [this, h2]

/-- The f-score bookkeeping invariant of claim C9: every record satisfies
`f_score = g_score + heuristic(point, goal)`. -/
def RecF (g : Graph2D V C) (goal : V) (m : V → Option (NodeInfo V C)) : Prop :=
  ∀ v i, m v = some i → i.f_score = i.g_score + (g.heuristic v goal : WithTop C)

theorem recF_infoInsert {g : Graph2D V C} {goal : V}
    {m : V → Option (NodeInfo V C)} (hm : RecF g goal m) {v : V} {i : NodeInfo V C}
    (hi : i.f_score = i.g_score + (g.heuristic v goal : WithTop C)) :
    RecF g goal (infoInsert m v i) := by
  intro w j hw
  by_cases hwv : w = v
  · subst hwv
    rw [infoInsert_self] at hw
    cases hw
    exact hi
  · rw [infoInsert_ne _ _ _ hwv] at hw
    exact hm w j hw

theorem recF_entryOrDefault {g : Graph2D V C} {goal : V}
    {m : V → Option (NodeInfo V C)} (hm : RecF g goal m) (v : V) :
    RecF g goal (entryOrDefault m v).2 := by
  unfold entryOrDefault
  cases h : m v with
  | some i => exact hm
  | none =>
    exact recF_infoInsert hm (by simp [NodeInfo.dflt])

theorem recF_selectFold {g : Graph2D V C} {goal : V}
    {m : V → Option (NodeInfo V C)} (hm : RecF g goal m) (acc : V) (l : List V) :
    RecF g goal (selectFold m acc l).2 := by
  induction l generalizing m acc with
  | nil => exact hm
  | cons node rest ih =>
    rw [selectFold]
    by_cases hc : ((entryOrDefault m acc).1.f_score <
        (entryOrDefault (entryOrDefault m acc).2 node).1.f_score)
    · rw [if_pos hc]
      exact ih (recF_entryOrDefault (recF_entryOrDefault hm acc) node) acc
    · rw [if_neg hc]
      exact ih (recF_entryOrDefault (recF_entryOrDefault hm acc) node) node

theorem recF_processNeighbor {g : Graph2D V C} {goal : V} (cur n : V)
    {st : SearchState V C} (hm : RecF g goal st.node_info) :
    RecF g goal (processNeighbor g goal cur n st).node_info := by
  rw [processNeighbor_def]
  by_cases h : ((entryOrDefault st.node_info cur).1.g_score + (g.travel_cost cur n : WithTop C) <
      (entryOrDefault (entryOrDefault st.node_info cur).2 n).1.g_score)
  · rw [if_pos h]
    exact recF_infoInsert
      (recF_entryOrDefault (recF_entryOrDefault hm cur) n) rfl
  · rw [if_neg h]
    exact recF_entryOrDefault (recF_entryOrDefault hm cur) n

theorem recF_expandNeighbors_inr {g : Graph2D V C} {goal cur : V} {rf : Nat}
    {l : List V} {st st2 : SearchState V C}
    (h : expandNeighbors g goal cur rf l st = Sum.inr st2)
    (hm : RecF g goal st.node_info) : RecF g goal st2.node_info := by
  induction l generalizing st with
  | nil => rw [expandNeighbors] at h; cases h; exact hm
  | cons n rest ih =>
    rw [expandNeighbors] at h
    by_cases ht : g.path_is_transversable cur n
    · rw [if_pos ht] at h
      by_cases hg : n = goal
      · rw [if_pos hg] at h; cases h
      · rw [if_neg hg] at h
        exact ih h (recF_processNeighbor cur n hm)
    · rw [if_neg ht] at h
      exact ih h hm

theorem recF_stepOnce_next {g : Graph2D V C} {goal : V} {rf : Nat}
    {st st2 : SearchState V C} (h : stepOnce g goal rf st = StepResult.next st2)
    (hm : RecF g goal st.node_info) : RecF g goal st2.node_info := by
  unfold stepOnce at h
  cases hop : st.open_list with
  | nil => rw [hop] at h; cases h
  | cons cmp rest =>
    rw [hop] at h
    simp only at h
    cases hex : expandNeighbors g goal (selectFold st.node_info cmp rest).1 rf
        (g.neighbors (selectFold st.node_info cmp rest).1)
        ⟨(cmp :: rest).erase (selectFold st.node_info cmp rest).1,
         (selectFold st.node_info cmp rest).2⟩ with
    | inl r =>
      rw [hex] at h
      cases r with
      | none => simp at h
      | some p => simp at h
    | inr st3 =>
      rw [hex] at h
      cases h
      exact recF_expandNeighbors_inr hex (recF_selectFold hm cmp rest)

theorem recF_steps {g : Graph2D V C} {goal : V} {rf : Nat}
    {st st2 : SearchState V C} (h : Steps g goal rf st st2)
    (hm : RecF g goal st.node_info) : RecF g goal st2.node_info := by
  induction h with
  | refl => exact hm
  | tail _ hstep ih => exact recF_stepOnce_next hstep ih

theorem recF_init {D : Type} [AddZeroClass D] [LinearOrder D]
    (g : Graph2D V D) (start goal : V) :
    RecF g goal (initState g start goal).node_info := by
  intro v i hv
  unfold initState at hv
  simp only at hv
  by_cases hvs : v = start
  · rw [if_pos hvs] at hv
    cases hv
    subst hvs
    simp
  · rw [if_neg hvs] at hv
    cases hv

end InvLemmas

end AStar

namespace AStar

/-- A 3-wide, 1-tall wall-free grid used to witness claims on concrete runs. -/
def grid13 : D2Q9 := D2Q9.new 3 1 (fun _ _ => false)

/-- The cell `(0,0)` of the witness grid. -/
def n00 : Node := ⟨0, 0, false⟩

/-- The cell `(1,0)` of the witness grid. -/
def n10 : Node := ⟨1, 0, false⟩

/-- The cell `(2,0)` of the witness grid. -/
def n20 : Node := ⟨2, 0, false⟩

/-- The capability view of the witness grid. -/
def G13 : Graph2D Node Q2 := grid13.toGraph

/-- The initial search state for start `(0,0)`, goal `(2,0)` on the witness grid. -/
def wSt0 : SearchState Node Q2 := initState G13 n00 n20

/-- The state after the first main-loop iteration on the witness grid. -/
def wSt1 : SearchState Node Q2 :=
  match stepOnce G13 n20 100 wSt0 with
  | StepResult.next s => s
  | StepResult.done _ => wSt0

theorem wStep01 : stepOnce G13 n20 100 wSt0 = StepResult.next wSt1 := by
  rfl

section ClaimsPerStep

variable {V : Type} {C : Type} [DecidableEq V] [LinearOrder C] [Add C]

/-- Claim C6: during expansion of `current`, for each transversable
non-goal neighbor the engine computes
`tentative_g = g_score[current] + travel_cost(current, neighbor)` and
updates the neighbor record to
`{parent = current, g_score = tentative_g, f_score = tentative_g + heuristic(neighbor, goal)}`
and inserts the neighbor into the open set exactly when `tentative_g` is
strictly below the neighbor's recorded `g_score` (which defaults to `+∞`
when the neighbor has no record); otherwise scores, parents and the open
set are unchanged.  `processNeighbor` is the per-neighbor update step run
by `expandNeighbors` exactly on the transversable non-goal neighbors. -/
theorem claim_C6 (g : Graph2D V C) (goal cur n : V) (st : SearchState V C) :
    (gOf st.node_info cur + (g.travel_cost cur n : WithTop C) < gOf st.node_info n →
      (processNeighbor g goal cur n st).node_info n =
        some ⟨some cur, gOf st.node_info cur + (g.travel_cost cur n : WithTop C),
              gOf st.node_info cur + (g.travel_cost cur n : WithTop C)
                + (g.heuristic n goal : WithTop C)⟩ ∧
      (processNeighbor g goal cur n st).open_list = setInsert st.open_list n ∧
      n ∈ (processNeighbor g goal cur n st).open_list) ∧
    (¬ gOf st.node_info cur + (g.travel_cost cur n : WithTop C) < gOf st.node_info n →
      (∀ w, gOf (processNeighbor g goal cur n st).node_info w = gOf st.node_info w) ∧
      (∀ w, fOf (processNeighbor g goal cur n st).node_info w = fOf st.node_info w) ∧
      (∀ w, parentOf (processNeighbor g goal cur n st).node_info w
        = parentOf st.node_info w) ∧
      (processNeighbor g goal cur n st).open_list = st.open_list) := by
  constructor
  · intro h
    refine ⟨processNeighbor_info_pos g goal cur n st h, ?_, ?_⟩
    · rw [processNeighbor_open_eq, if_pos h]
    · rw [processNeighbor_open_eq, if_pos h]
      exact setInsert_mem_self _ _
  · intro h
    exact ⟨processNeighbor_gOf_neg g goal cur n st h,
           processNeighbor_fOf_neg g goal cur n st h,
           processNeighbor_parentOf_neg g goal cur n st h,
           by rw [processNeighbor_open_eq, if_neg h]⟩

/-- Claim C7: in a main-loop iteration on a non-empty open set, the point
`stepOnce` selects (the result of `selectFold` over the open list) belongs
to the open set and has the lowest recorded `f_score` among all its
members; ties go to the later element in the set's iteration order. -/
theorem claim_C7 (g : Graph2D V C) (goal : V) (rf : Nat) (st : SearchState V C)
    (cmp : V) (rest : List V) (hop : st.open_list = cmp :: rest) :
    (selectFold st.node_info cmp rest).1 ∈ st.open_list ∧
    ∀ v ∈ st.open_list, fOf st.node_info (selectFold st.node_info cmp rest).1
      ≤ fOf st.node_info v := by
  constructor
  · rw [hop]
    rcases selectFold_mem st.node_info cmp rest with h | h
    · simp [h]
    · simp [h]
  · intro v hv
    rw [hop] at hv
    exact selectFold_min st.node_info cmp rest v hv

/-- Claim C8: recorded `g_score`s never increase across the run: along any
sequence of main-loop iterations, every point's recorded `g_score`
(defaulting to `+∞` when absent) is monotonically non-increasing, so a
point that obtains a finite `g_score` never sees it grow afterwards. -/
theorem claim_C8 (g : Graph2D V C) (goal : V) (rf : Nat)
    (st st2 : SearchState V C) (h : Steps g goal rf st st2) (w : V) :
    gOf st2.node_info w ≤ gOf st.node_info w :=
  steps_gOf_mono g goal rf st st2 h w

/-- Claim C9: in any state reachable during a run started from
`initState` (where `start` is seeded with `g_score = 0` and
`f_score = heuristic(start, goal)`), every bookkeeping record satisfies
`f_score = g_score + heuristic(point, goal)`. -/
theorem claim_C9 {D : Type} [LinearOrder D] [AddZeroClass D]
    (g : Graph2D V D) (start goal : V) (rf : Nat) (st : SearchState V D)
    (h : Steps g goal rf (initState g start goal) st)
    (v : V) (i : NodeInfo V D) (hv : st.node_info v = some i) :
    i.f_score = i.g_score + (g.heuristic v goal : WithTop D) :=
  recF_steps h (recF_init g start goal) v i hv

end ClaimsPerStep

/-- Witness for C6 on the concrete witness grid: expanding `(0,0)` toward
goal `(2,0)`, the neighbor `(1,0)` (no record, so `g_score = +∞`) is
updated to `g = 1`, `f = 2` with parent `(0,0)` and enters the open set. -/
theorem claim_C6_witness :
    (processNeighbor G13 n20 n00 n10 wSt0).node_info n10 =
      some ⟨some n00, gOf wSt0.node_info n00 + (G13.travel_cost n00 n10 : WithTop Q2),
            gOf wSt0.node_info n00 + (G13.travel_cost n00 n10 : WithTop Q2)
              + (G13.heuristic n10 n20 : WithTop Q2)⟩ ∧
    (processNeighbor G13 n20 n00 n10 wSt0).open_list = setInsert wSt0.open_list n10 ∧
    n10 ∈ (processNeighbor G13 n20 n00 n10 wSt0).open_list :=
  (claim_C6 G13 n20 n00 n10 wSt0).1 (by decide)

/-- Witness for C7 on the concrete witness grid: the initial open set is
`[(0,0)]` and the selected node minimizes `f_score` over it. -/
theorem claim_C7_witness :
    fOf wSt0.node_info (selectFold wSt0.node_info n00 []).1
      ≤ fOf wSt0.node_info n00 :=
  (claim_C7 G13 n20 100 wSt0 n00 [] rfl).2 n00 (by rw [show wSt0.open_list = [n00] from rfl]; simp)

/-- Witness for C8 on the concrete witness grid: after the first
main-loop iteration, the recorded `g_score` of `(1,0)` is no larger than
before the iteration. -/
theorem claim_C8_witness :
    gOf wSt1.node_info n10 ≤ gOf wSt0.node_info n10 :=
  claim_C8 G13 n20 100 wSt0 wSt1 (Relation.ReflTransGen.single wStep01) n10

/-- Witness for C9 on the concrete witness grid: after one iteration the
record of `(1,0)` satisfies `f_score = g_score + heuristic`. -/
theorem claim_C9_witness :
    (NodeInfo.mk (some n00) ((⟨1, 0⟩ : Q2) : WithTop Q2)
        ((⟨2, 0⟩ : Q2) : WithTop Q2)).f_score =
      (NodeInfo.mk (some n00) ((⟨1, 0⟩ : Q2) : WithTop Q2)
        ((⟨2, 0⟩ : Q2) : WithTop Q2)).g_score + (G13.heuristic n10 n20 : WithTop Q2) :=
  claim_C9 G13 n00 n20 100 wSt1 (Relation.ReflTransGen.single wStep01) n10 _ (by decide)

end AStar

namespace AStar

section PathLemmas

variable {V : Type} {C : Type} [DecidableEq V] [LinearOrder C] [Add C]

theorem reconstructChain_extends {m : V → Option (NodeInfo V C)} :
    ∀ {fuel : Nat} {cur : V} {acc out : List V},
      reconstructChain m fuel cur acc = some out → ∃ pre, out = acc ++ pre := by
  intro fuel
  induction fuel with
  | zero => intro cur acc out h; rw [reconstructChain] at h; cases h
  | succ n ih =>
    intro cur acc out h
    rw [reconstructChain] at h
    cases hm : m cur with
    | none => simp only [hm] at h; cases h; exact ⟨[], by simp⟩
    | some info =>
      simp only [hm] at h
      cases hp : info.parent with
      | some parent =>
        simp only [hp] at h
        obtain ⟨pre, hpre⟩ := ih h
        exact ⟨parent :: pre, by simp [hpre]⟩
      | none => simp only [hp] at h; cases h; exact ⟨[], by simp⟩

theorem buildPath_length {m : V → Option (NodeInfo V C)} {rf : Nat}
    {cur goal : V} {r : List V} (h : buildPath m rf cur goal = some r) :
    2 ≤ r.length := by
  unfold buildPath at h
  cases hc : reconstructChain m rf cur [cur] with
  | none => rw [hc] at h; cases h
  | some out =>
    rw [hc] at h
    have h2 := Option.some.inj h
    obtain ⟨pre, hpre⟩ := reconstructChain_extends hc
    rw [← h2, hpre]
    show 2 ≤ (([cur] ++ pre).reverse ++ [goal]).length
    have hl : (([cur] ++ pre).reverse ++ [goal]).length = pre.length + 2 := by simp
    omega

theorem aStarLoop_found {g : Graph2D V C} {goal : V} {rf fuel : Nat}
    {st : SearchState V C} {p : List V}
    (h : aStarLoop g goal rf fuel st = AStarResult.found p) :
    ∃ st2, Steps g goal rf st st2 ∧
      stepOnce g goal rf st2 = StepResult.done (AStarResult.found p) := by
  induction fuel generalizing st with
  | zero => rw [aStarLoop] at h; cases h
  | succ n ih =>
    rw [aStarLoop] at h
    cases hst : stepOnce g goal rf st with
    | done r =>
      rw [hst] at h
      cases h
      exact ⟨st, Relation.ReflTransGen.refl, hst⟩
    | next st3 =>
      rw [hst] at h
      obtain ⟨st2, hs, hd⟩ := ih h
      exact ⟨st2, Relation.ReflTransGen.head hst hs, hd⟩

theorem stepOnce_done_found {g : Graph2D V C} {goal : V} {rf : Nat}
    {st : SearchState V C} {p : List V}
    (h : stepOnce g goal rf st = StepResult.done (AStarResult.found p)) :
    ∃ cmp rest, st.open_list = cmp :: rest ∧
      expandNeighbors g goal (selectFold st.node_info cmp rest).1 rf
        (g.neighbors (selectFold st.node_info cmp rest).1)
        ⟨(cmp :: rest).erase (selectFold st.node_info cmp rest).1,
         (selectFold st.node_info cmp rest).2⟩ = Sum.inl (some p) := by
  unfold stepOnce at h
  cases hop : st.open_list with
  | nil => rw [hop] at h; cases h
  | cons cmp rest =>
    rw [hop] at h
    simp only at h
    refine ⟨cmp, rest, rfl, ?_⟩
    cases hex : expandNeighbors g goal (selectFold st.node_info cmp rest).1 rf
        (g.neighbors (selectFold st.node_info cmp rest).1)
        ⟨(cmp :: rest).erase (selectFold st.node_info cmp rest).1,
         (selectFold st.node_info cmp rest).2⟩ with
    | inl r =>
      rw [hex] at h
      cases r with
      | none => exact absurd (StepResult.done.inj h) (by simp)
      | some q =>
        have h2 := AStarResult.found.inj (StepResult.done.inj h)
        rw [h2]
    | inr st3 => rw [hex] at h; cases h

theorem expandNeighbors_inl_found {g : Graph2D V C} {goal cur : V} {rf : Nat}
    {l : List V} {st : SearchState V C} {r : Option (List V)}
    (P : SearchState V C → Prop)
    (hP : ∀ n st0, n ∈ g.neighbors cur → g.path_is_transversable cur n = true →
        n ≠ goal → P st0 → P (processNeighbor g goal cur n st0))
    (hsub : ∀ n ∈ l, n ∈ g.neighbors cur) (hst : P st)
    (h : expandNeighbors g goal cur rf l st = Sum.inl r) :
    ∃ st3, P st3 ∧ g.path_is_transversable cur goal = true ∧
      goal ∈ g.neighbors cur ∧ r = buildPath st3.node_info rf cur goal := by
  induction l generalizing st with
  | nil => rw [expandNeighbors] at h; cases h
  | cons n rest ih =>
    rw [expandNeighbors] at h
    by_cases ht : g.path_is_transversable cur n
    · rw [if_pos ht] at h
      by_cases hg : n = goal
      · rw [if_pos hg] at h
        cases h
        subst hg
        exact ⟨st, hst, ht, hsub n (by simp), rfl⟩
      · rw [if_neg hg] at h
        exact ih (fun n2 hn2 => hsub n2 (List.mem_cons_of_mem _ hn2))
          (hP n st (hsub n (by simp)) ht hg hst) h
    · rw [if_neg ht] at h
      exact ih (fun n2 hn2 => hsub n2 (List.mem_cons_of_mem _ hn2)) hst h

end PathLemmas

section ClaimC10

variable {V : Type} {C : Type} [DecidableEq V] [LinearOrder C] [Add C] [Zero C]

/-- Claim C10: whenever the embedded `a_star` returns a path, that path has
at least two elements (the expanded node that discovered the goal is pushed
before the goal is appended), even when `start = goal`. -/
theorem claim_C10 (g : Graph2D V C) (start goal : V) (fuel rf : Nat)
    (p : List V) (h : a_star g start goal fuel rf = AStarResult.found p) :
    2 ≤ p.length := by
  obtain ⟨st2, _, hd⟩ := aStarLoop_found h
  obtain ⟨cmp, rest, hop, hex⟩ := stepOnce_done_found hd
  obtain ⟨st3, _, _, _, hbp⟩ := expandNeighbors_inl_found (fun _ => True)
    (fun _ _ _ _ _ _ => trivial) (fun _ hn => hn) trivial hex
  exact buildPath_length hbp.symm

end ClaimC10

/-- Witness for C10: the concrete run on the witness grid returns the
three-element path `[(0,0), (1,0), (2,0)]`. -/
theorem claim_C10_witness : 2 ≤ ([n00, n10, n20] : List Node).length :=
  claim_C10 G13 n00 n20 100 100 [n00, n10, n20] (by decide)

end AStar

namespace AStar

section InvariantC1

variable {V : Type} {C : Type} [DecidableEq V] [LinearOrder C] [Add C]

theorem mem_setInsert {l : List V} {v w : V} (h : v ∈ setInsert l w) :
    v ∈ l ∨ v = w := by
  unfold setInsert at h
  by_cases hw : w ∈ l
  · rw [if_pos hw] at h; exact Or.inl h
  · rw [if_neg hw] at h
    rcases List.mem_append.mp h with h1 | h1
    · exact Or.inl h1
    · exact Or.inr (List.mem_singleton.mp h1)

theorem infoInsert_entryOrDefault_self (m : V → Option (NodeInfo V C)) (v : V)
    (i : NodeInfo V C) : infoInsert (entryOrDefault m v).2 v i = infoInsert m v i := by
  funext w
  show (if w = v then some i else (entryOrDefault m v).2 w)
      = if w = v then some i else m w
  by_cases hw : w = v
  · rw [if_pos hw, if_pos hw]
  · rw [if_neg hw, if_neg hw]
    unfold entryOrDefault
    cases h : m v with
    | some j => rfl
    | none =>
      show infoInsert m v NodeInfo.dflt w = m w
      rw [infoInsert_ne _ _ _ hw]

/-- The bookkeeping invariant needed for path reconstruction: every open
point is recorded with a finite `g_score`; a record with no parent can
only belong to `start`; and every recorded parent link was established
from a neighbor relationship over a transversable step, with the parent
itself recorded. -/
structure InvP (g : Graph2D V C) (start : V) (st : SearchState V C) : Prop where
  open_rec : ∀ v ∈ st.open_list, ∃ i, st.node_info v = some i ∧ i.g_score ≠ ⊤
  parent_none : ∀ v i, st.node_info v = some i → i.parent = none → v = start
  parent_edge : ∀ v i p, st.node_info v = some i → i.parent = some p →
      v ∈ g.neighbors p ∧ g.path_is_transversable p v = true ∧ (st.node_info p).isSome

/-- The expanded node stays recorded with a finite `g_score` throughout
its expansion. -/
def CurRec (cur : V) (st : SearchState V C) : Prop :=
  ∃ i, st.node_info cur = some i ∧ i.g_score ≠ ⊤

theorem processNeighbor_pos_rec {g : Graph2D V C} {goal cur n : V}
    {st : SearchState V C} {ci : NodeInfo V C}
    (hcur : st.node_info cur = some ci)
    (h : ci.g_score + (g.travel_cost cur n : WithTop C) < gOf st.node_info n) :
    processNeighbor g goal cur n st =
      ⟨setInsert st.open_list n,
       infoInsert st.node_info n
         ⟨some cur, ci.g_score + (g.travel_cost cur n : WithTop C),
          ci.g_score + (g.travel_cost cur n : WithTop C)
            + (g.heuristic n goal : WithTop C)⟩⟩ := by
  rw [processNeighbor_def]
  rw [entryOrDefault_some hcur]
  have hguard : ((ci, st.node_info).1.g_score + (g.travel_cost cur n : WithTop C) <
      (entryOrDefault (ci, st.node_info).2 n).1.g_score) := by
    rw [entryOrDefault_fst_g]
    exact h
  rw [if_pos hguard]
  rw [infoInsert_entryOrDefault_self]

theorem processNeighbor_neg_rec {g : Graph2D V C} {goal cur n : V}
    {st : SearchState V C} {ci : NodeInfo V C}
    (hcur : st.node_info cur = some ci) (hfin : ci.g_score ≠ ⊤)
    (h : ¬ ci.g_score + (g.travel_cost cur n : WithTop C) < gOf st.node_info n) :
    processNeighbor g goal cur n st = ⟨st.open_list, st.node_info⟩ := by
  have htg : ci.g_score + (g.travel_cost cur n : WithTop C) ≠ ⊤ := by
    rw [Ne, WithTop.add_eq_top]
    push_neg
    exact ⟨hfin, WithTop.coe_ne_top⟩
  have hn : ∃ ni, st.node_info n = some ni := by
    cases hni : st.node_info n with
    | none =>
      exfalso
      apply h
      have : gOf st.node_info n = ⊤ := by unfold gOf; rw [hni]; rfl
      rw [this]
      exact WithTop.lt_top_iff_ne_top.mpr htg
    | some ni => exact ⟨ni, rfl⟩
  obtain ⟨ni, hni⟩ := hn
  rw [processNeighbor_def]
  rw [entryOrDefault_some hcur]
  have hguard : ¬ ((ci, st.node_info).1.g_score + (g.travel_cost cur n : WithTop C) <
      (entryOrDefault (ci, st.node_info).2 n).1.g_score) := by
    rw [entryOrDefault_fst_g]
    exact h
  rw [if_neg hguard]
  rw [entryOrDefault_some hni]

theorem invp_processNeighbor {g : Graph2D V C} {goal start cur n : V}
    {st : SearchState V C}
    (hmem : n ∈ g.neighbors cur) (ht : g.path_is_transversable cur n = true)
    (hI : InvP g start st) (hC : CurRec cur st) :
    InvP g start (processNeighbor g goal cur n st) ∧
      CurRec cur (processNeighbor g goal cur n st) := by
  obtain ⟨ci, hci, hfin⟩ := hC
  by_cases h : ci.g_score + (g.travel_cost cur n : WithTop C) < gOf st.node_info n
  · have htg : ci.g_score + (g.travel_cost cur n : WithTop C) ≠ ⊤ := by
      rw [Ne, WithTop.add_eq_top]
      push_neg
      exact ⟨hfin, WithTop.coe_ne_top⟩
    rw [processNeighbor_pos_rec hci h]
    set nrec : NodeInfo V C :=
      ⟨some cur, ci.g_score + (g.travel_cost cur n : WithTop C),
       ci.g_score + (g.travel_cost cur n : WithTop C)
         + (g.heuristic n goal : WithTop C)⟩ with hnrec
    refine ⟨⟨?_, ?_, ?_⟩, ?_⟩
    · intro v hv
      rcases mem_setInsert hv with hv1 | hv1
      · by_cases hvn : v = n
        · subst hvn
          exact ⟨nrec, infoInsert_self _ _ _, htg⟩
        · obtain ⟨i, hvi, hfi⟩ := hI.open_rec v hv1
          exact ⟨i, (infoInsert_ne st.node_info n _ hvn).trans hvi, hfi⟩
      · subst hv1
        exact ⟨nrec, infoInsert_self _ _ _, htg⟩
    · intro v i hvi hpar
      have hvi2 : (if v = n then some nrec else st.node_info v) = some i := hvi
      by_cases hvn : v = n
      · rw [if_pos hvn] at hvi2
        cases hvi2
        cases hpar
      · rw [if_neg hvn] at hvi2
        exact hI.parent_none v i hvi2 hpar
    · intro v i p hvi hpar
      have hvi2 : (if v = n then some nrec else st.node_info v) = some i := hvi
      by_cases hvn : v = n
      · rw [if_pos hvn] at hvi2
        cases hvi2
        have hp2 : some cur = some p := hpar
        cases hp2
        subst hvn
        refine ⟨hmem, ht, ?_⟩
        show (if cur = v then some nrec else st.node_info cur).isSome
        by_cases hcn : cur = v
        · rw [if_pos hcn]; rfl
        · rw [if_neg hcn, hci]; rfl
      · rw [if_neg hvn] at hvi2
        obtain ⟨h1, h2, h3⟩ := hI.parent_edge v i p hvi2 hpar
        refine ⟨h1, h2, ?_⟩
        show (if p = n then some nrec else st.node_info p).isSome
        by_cases hpn2 : p = n
        · rw [if_pos hpn2]; rfl
        · rw [if_neg hpn2]; exact h3
    · by_cases hcn : cur = n
      · refine ⟨nrec, ?_, htg⟩
        show (if cur = n then some nrec else st.node_info cur) = some nrec
        rw [if_pos hcn]
      · exact ⟨ci, (infoInsert_ne st.node_info n _ hcn).trans hci, hfin⟩
  · rw [processNeighbor_neg_rec hci hfin h]
    exact ⟨⟨hI.open_rec, hI.parent_none, hI.parent_edge⟩, ⟨ci, hci, hfin⟩⟩

theorem expandNeighbors_inr_inv {g : Graph2D V C} {goal cur : V} {rf : Nat}
    {l : List V} {st st2 : SearchState V C}
    (P : SearchState V C → Prop)
    (hP : ∀ n st0, n ∈ g.neighbors cur → g.path_is_transversable cur n = true →
        n ≠ goal → P st0 → P (processNeighbor g goal cur n st0))
    (hsub : ∀ n ∈ l, n ∈ g.neighbors cur) (hst : P st)
    (h : expandNeighbors g goal cur rf l st = Sum.inr st2) : P st2 := by
  induction l generalizing st with
  | nil => rw [expandNeighbors] at h; cases h; exact hst
  | cons n rest ih =>
    rw [expandNeighbors] at h
    by_cases ht : g.path_is_transversable cur n
    · rw [if_pos ht] at h
      by_cases hg : n = goal
      · rw [if_pos hg] at h; cases h
      · rw [if_neg hg] at h
        exact ih (fun n2 hn2 => hsub n2 (List.mem_cons_of_mem _ hn2))
          (hP n st (hsub n (by simp)) ht hg hst) h
    · rw [if_neg ht] at h
      exact ih (fun n2 hn2 => hsub n2 (List.mem_cons_of_mem _ hn2)) hst h

theorem invp_init {D : Type} [LinearOrder D] [AddZeroClass D]
    (g : Graph2D V D) (start goal : V) :
    InvP g start (initState g start goal) := by
  constructor
  · intro v hv
    have hvs : v = start := List.mem_singleton.mp hv
    subst hvs
    refine ⟨⟨none, (0 : WithTop D), (g.heuristic v goal : WithTop D)⟩, ?_, ?_⟩
    · show (initState g v goal).node_info v = _
      unfold initState
      simp
    · show ((0 : D) : WithTop D) ≠ ⊤
      exact WithTop.coe_ne_top
  · intro v i hvi hpar
    by_cases hvs : v = start
    · exact hvs
    · unfold initState at hvi
      simp only at hvi
      rw [if_neg hvs] at hvi
      cases hvi
  · intro v i p hvi hpar
    unfold initState at hvi
    simp only at hvi
    by_cases hvs : v = start
    · rw [if_pos hvs] at hvi
      cases hvi
      cases hpar
    · rw [if_neg hvs] at hvi
      cases hvi

theorem invp_stepOnce_next {g : Graph2D V C} {goal start : V} {rf : Nat}
    {st st2 : SearchState V C} (hI : InvP g start st)
    (h : stepOnce g goal rf st = StepResult.next st2) : InvP g start st2 := by
  unfold stepOnce at h
  cases hop : st.open_list with
  | nil => rw [hop] at h; cases h
  | cons cmp rest =>
    rw [hop] at h
    simp only at h
    have hrec : ∀ v ∈ cmp :: rest, (st.node_info v).isSome := by
      intro v hv
      obtain ⟨i, hvi, _⟩ := hI.open_rec v (by rw [hop]; exact hv)
      rw [hvi]; rfl
    have hmap : (selectFold st.node_info cmp rest).2 = st.node_info :=
      selectFold_map_eq st.node_info cmp rest (hrec cmp (by simp))
        (fun v hv => hrec v (List.mem_cons_of_mem _ hv))
    rw [hmap] at h
    have hcurmem : (selectFold st.node_info cmp rest).1 ∈ cmp :: rest := by
      rcases selectFold_mem st.node_info cmp rest with h1 | h1
      · rw [h1]; simp
      · exact List.mem_cons_of_mem _ h1
    have hC : CurRec (selectFold st.node_info cmp rest).1
        (⟨(cmp :: rest).erase (selectFold st.node_info cmp rest).1, st.node_info⟩ :
          SearchState V C) := by
      obtain ⟨i, hvi, hfi⟩ := hI.open_rec _ (by rw [hop]; exact hcurmem)
      exact ⟨i, hvi, hfi⟩
    have hI1 : InvP g start
        (⟨(cmp :: rest).erase (selectFold st.node_info cmp rest).1, st.node_info⟩ :
          SearchState V C) := by
      refine ⟨?_, hI.parent_none, ?_⟩
      · intro v hv
        exact hI.open_rec v (by rw [hop]; exact List.mem_of_mem_erase hv)
      · intro v i p hvi hpar
        exact hI.parent_edge v i p hvi hpar
    cases hex : expandNeighbors g goal (selectFold st.node_info cmp rest).1 rf
        (g.neighbors (selectFold st.node_info cmp rest).1)
        ⟨(cmp :: rest).erase (selectFold st.node_info cmp rest).1, st.node_info⟩ with
    | inl r =>
      rw [hex] at h
      cases r with
      | none => exact absurd h (by simp)
      | some p => exact absurd h (by simp)
    | inr st3 =>
      rw [hex] at h
      cases h
      have := expandNeighbors_inr_inv
        (fun s => InvP g start s ∧ CurRec (selectFold st.node_info cmp rest).1 s)
        (fun n st0 hmem ht hne hP0 =>
          invp_processNeighbor hmem ht hP0.1 hP0.2)
        (fun n hn => hn) ⟨hI1, hC⟩ hex
      exact this.1

theorem invp_steps {g : Graph2D V C} {goal start : V} {rf : Nat}
    {st st2 : SearchState V C} (h : Steps g goal rf st st2)
    (hI : InvP g start st) : InvP g start st2 := by
  induction h with
  | refl => exact hI
  | tail _ hstep ih => exact invp_stepOnce_next ih hstep

theorem reconstructChain_ok {g : Graph2D V C} {start : V}
    {m : V → Option (NodeInfo V C)}
    (hpn : ∀ v i, m v = some i → i.parent = none → v = start)
    (hpe : ∀ v i p, m v = some i → i.parent = some p →
      v ∈ g.neighbors p ∧ g.path_is_transversable p v = true ∧ (m p).isSome) :
    ∀ (fuel : Nat) (cur : V) (acc out : List V), (m cur).isSome →
      acc ≠ [] → acc.getLast? = some cur →
      List.Chain' (fun a b => Edge g b a) acc →
      reconstructChain m fuel cur acc = some out →
      out ≠ [] ∧ out.getLast? = some start ∧
        List.Chain' (fun a b => Edge g b a) out ∧ ∃ pre, out = acc ++ pre := by
  intro fuel
  induction fuel with
  | zero =>
    intro cur acc out _ _ _ _ h
    rw [reconstructChain] at h
    cases h
  | succ k ih =>
    intro cur acc out hcur hacc hlast hchain h
    rw [reconstructChain] at h
    obtain ⟨i, hi⟩ := Option.isSome_iff_exists.mp hcur
    simp only [hi] at h
    cases hp : i.parent with
    | none =>
      simp only [hp] at h
      cases h
      exact ⟨hacc, by rw [hlast]; rw [hpn cur i hi hp], hchain, ⟨[], by simp⟩⟩
    | some p =>
      simp only [hp] at h
      obtain ⟨hmem, ht, hps⟩ := hpe cur i p hi hp
      have hlast2 : (acc ++ [p]).getLast? = some p := by
        rw [List.getLast?_concat]
      have hchain2 : List.Chain' (fun a b => Edge g b a) (acc ++ [p]) := by
        rw [List.chain'_append]
        refine ⟨hchain, List.chain'_singleton p, ?_⟩
        intro x hx y hy
        rw [hlast] at hx
        cases hx
        simp only [List.head?_cons, Option.mem_def, Option.some.injEq] at hy
        subst hy
        exact ⟨hmem, ht⟩
      obtain ⟨h1, h2, h3, pre, h4⟩ := ih p (acc ++ [p]) out hps (by simp) hlast2 hchain2 h
      exact ⟨h1, h2, h3, p :: pre, by rw [h4]; simp⟩

theorem buildPath_ok {g : Graph2D V C} {start goal cur : V} {rf : Nat}
    {m : V → Option (NodeInfo V C)} {r : List V}
    (hpn : ∀ v i, m v = some i → i.parent = none → v = start)
    (hpe : ∀ v i p, m v = some i → i.parent = some p →
      v ∈ g.neighbors p ∧ g.path_is_transversable p v = true ∧ (m p).isSome)
    (hcur : (m cur).isSome)
    (ht : g.path_is_transversable cur goal = true) (hmemg : goal ∈ g.neighbors cur)
    (h : buildPath m rf cur goal = some r) :
    r.head? = some start ∧ r.getLast? = some goal ∧ List.Chain' (Edge g) r := by
  unfold buildPath at h
  cases hc : reconstructChain m rf cur [cur] with
  | none => rw [hc] at h; cases h
  | some out =>
    rw [hc] at h
    have h2 := Option.some.inj h
    obtain ⟨hone, hlast, hchain, pre, hpre⟩ := reconstructChain_ok hpn hpe rf cur [cur] out
      hcur (by simp) (by simp) (List.chain'_singleton cur) hc
    have hhead : out.head? = some cur := by
      rw [hpre]; rfl
    have hrevne : out.reverse ≠ [] := by
      simp [hone]
    refine ⟨?_, ?_, ?_⟩
    · rw [← h2]
      show (out.reverse ++ [goal]).head? = some start
      obtain ⟨x, xs, hx⟩ := List.exists_cons_of_ne_nil hrevne
      rw [hx]
      have : out.reverse.head? = some start := by
        rw [List.head?_reverse]
        exact hlast
      rw [hx] at this
      simpa using this
    · rw [← h2]
      show (out.reverse ++ [goal]).getLast? = some goal
      rw [List.getLast?_concat]
    · rw [← h2]
      show List.Chain' (Edge g) (out.reverse ++ [goal])
      rw [List.chain'_append]
      refine ⟨?_, List.chain'_singleton goal, ?_⟩
      · rw [List.chain'_reverse]
        exact hchain
      · intro x hx y hy
        simp only [List.head?_cons, Option.mem_def, Option.some.injEq] at hy
        subst hy
        have : out.reverse.getLast? = some cur := by
          rw [List.getLast?_reverse]
          exact hhead
        rw [this] at hx
        cases hx
        exact ⟨hmemg, ht⟩

end InvariantC1

end AStar

namespace AStar

section ClaimC1

variable {V : Type} {C : Type} [DecidableEq V]

/-- Full specification of a returned path: it starts at `start`, ends at
`goal`, follows capability edges (neighbor membership plus
transversability), and has at least two elements. -/
theorem a_star_found_spec {D : Type} [LinearOrder D] [AddZeroClass D]
    (g : Graph2D V D) (start goal : V) (fuel rf : Nat) (p : List V)
    (h : a_star g start goal fuel rf = AStarResult.found p) :
    p.head? = some start ∧ p.getLast? = some goal ∧
      List.Chain' (Edge g) p ∧ 2 ≤ p.length := by
  obtain ⟨st2, hsteps, hd⟩ := aStarLoop_found h
  obtain ⟨cmp, rest, hop, hex⟩ := stepOnce_done_found hd
  have hI2 : InvP g start st2 := invp_steps hsteps (invp_init g start goal)
  have hrec : ∀ v ∈ cmp :: rest, (st2.node_info v).isSome := by
    intro v hv
    obtain ⟨i, hvi, _⟩ := hI2.open_rec v (by rw [hop]; exact hv)
    rw [hvi]; rfl
  have hmap : (selectFold st2.node_info cmp rest).2 = st2.node_info :=
    selectFold_map_eq st2.node_info cmp rest (hrec cmp (by simp))
      (fun v hv => hrec v (List.mem_cons_of_mem _ hv))
  rw [hmap] at hex
  have hcurmem : (selectFold st2.node_info cmp rest).1 ∈ cmp :: rest := by
    rcases selectFold_mem st2.node_info cmp rest with h1 | h1
    · rw [h1]; simp
    · exact List.mem_cons_of_mem _ h1
  have hC : CurRec (selectFold st2.node_info cmp rest).1
      (⟨(cmp :: rest).erase (selectFold st2.node_info cmp rest).1, st2.node_info⟩ :
        SearchState V D) :=
    hI2.open_rec _ (by rw [hop]; exact hcurmem)
  have hI1 : InvP g start
      (⟨(cmp :: rest).erase (selectFold st2.node_info cmp rest).1, st2.node_info⟩ :
        SearchState V D) := by
    refine ⟨?_, hI2.parent_none, ?_⟩
    · intro v hv
      exact hI2.open_rec v (by rw [hop]; exact List.mem_of_mem_erase hv)
    · intro v i q hvi hpar
      exact hI2.parent_edge v i q hvi hpar
  obtain ⟨st3, ⟨hI3, hC3⟩, htrans, hmemg, hbp⟩ := expandNeighbors_inl_found
    (fun s => InvP g start s ∧ CurRec (selectFold st2.node_info cmp rest).1 s)
    (fun n st0 hmem ht hne hP0 => invp_processNeighbor hmem ht hP0.1 hP0.2)
    (fun n hn => hn) ⟨hI1, hC⟩ hex
  obtain ⟨ci, hci, _⟩ := hC3
  obtain ⟨hh, hl, hchain⟩ := buildPath_ok hI3.parent_none hI3.parent_edge
    (by rw [hci]; rfl) htrans hmemg hbp.symm
  exact ⟨hh, hl, hchain, buildPath_length hbp.symm⟩

/-- Claim C1: whenever the embedded `a_star` returns a path, the path
starts at `start`, ends at `goal`, and every consecutive pair is
transversable in the graph. -/
theorem claim_C1 {D : Type} [LinearOrder D] [AddZeroClass D]
    (g : Graph2D V D) (start goal : V) (fuel rf : Nat) (p : List V)
    (h : a_star g start goal fuel rf = AStarResult.found p) :
    p.head? = some start ∧ p.getLast? = some goal ∧
      List.Chain' (fun a b => g.path_is_transversable a b = true) p := by
  obtain ⟨hh, hl, hchain, _⟩ := a_star_found_spec g start goal fuel rf p h
  exact ⟨hh, hl, hchain.imp (fun a b hab => hab.2)⟩

end ClaimC1

/-- Witness for C1: the concrete run on the witness grid returns
`[(0,0), (1,0), (2,0)]`, which starts at the start, ends at the goal, and
steps only across transversable pairs. -/
theorem claim_C1_witness :
    ([n00, n10, n20] : List Node).head? = some n00 ∧
    ([n00, n10, n20] : List Node).getLast? = some n20 ∧
    List.Chain' (fun a b => G13.path_is_transversable a b = true) [n00, n10, n20] :=
  claim_C1 G13 n00 n20 100 100 [n00, n10, n20] (by decide)

end AStar

namespace AStar

/-- A 2-wide, 2-tall wall-free reference grid. -/
def grid22 : D2Q9 := D2Q9.new 2 2 (fun _ _ => false)

/-- The capability view of the 2x2 reference grid. -/
def G22 : Graph2D Node Q2 := grid22.toGraph

/-- The cell `(0,1)` of the 2x2 reference grid. -/
def n01 : Node := ⟨0, 1, false⟩

/-- In the benchmark grid implementation every point is transversable to
itself (the first branch of `path_is_transversable`). -/
theorem D2Q9.path_is_transversable_self (g : D2Q9) (a : Node) :
    g.path_is_transversable a a = true := by
  unfold D2Q9.path_is_transversable
  rw [if_pos rfl]

/-- Counterexample for claim C2: on the 2x2 reference grid (whose
`path_is_transversable` holds reflexively, witnessed at the start cell),
`a_star` with `start = goal = (0,0)` returns the three-element path
`[(0,0), (0,1), (0,0)]`, not the single-element `[(0,0)]`.  The goal is
only ever detected as a *neighbor* of an expanded node, and the grid's
`neighbors` never lists a cell as its own neighbor, so the run expands a
real neighbor first. -/
theorem claim_C2_counterexample :
    G22.path_is_transversable n00 n00 = true ∧
    a_star G22 n00 n00 100 100 = AStarResult.found [n00, n01, n00] ∧
    AStarResult.found [n00, n01, n00] ≠ AStarResult.found [n00] :=
  ⟨D2Q9.path_is_transversable_self grid22 n00, by decide, by decide⟩

/-- Amended claim C2: with `start = goal` on the reference grid (self
transversability holding at every point), the returned path is not the
single-element `[start]`: the run returns a path of length at least two;
concretely, on the 2x2 open grid with `start = goal = (0,0)` it returns
`[(0,0), (0,1), (0,0)]`. -/
theorem claim_C2 :
    (∀ a : Node, G22.path_is_transversable a a = true) ∧
    a_star G22 n00 n00 100 100 = AStarResult.found [n00, n01, n00] ∧
    AStarResult.found [n00, n01, n00] ≠ AStarResult.found [n00] :=
  ⟨fun a => D2Q9.path_is_transversable_self grid22 a, by decide, by decide⟩

end AStar

namespace AStar

section Reference

variable {V : Type} {C : Type} [DecidableEq V] [LinearOrder C] [Add C]

/-- Lookup in a materialized distance table, `+∞` when absent. -/
def dGet (d : List (V × WithTop C)) (v : V) : WithTop C :=
  ((d.find? (fun q => decide (q.1 = v))).map Prod.snd).getD ⊤

/-- One round of exhaustive relaxation over every capability edge
(`w ∈ neighbors u` and `path_is_transversable u w`): an independent
reference shortest-path computation, not shared with the engine. -/
def relaxL (g : Graph2D V C) (verts : List V) (d : List (V × WithTop C)) :
    List (V × WithTop C) :=
  verts.map (fun v =>
    (v, verts.foldl
      (fun acc u =>
        if v ∈ g.neighbors u ∧ g.path_is_transversable u v = true then
          min acc (dGet d u + (g.travel_cost u v : WithTop C))
        else acc)
      (dGet d v)))

/-- Iterated relaxation rounds. -/
def bfIter (g : Graph2D V C) (verts : List V) :
    Nat → List (V × WithTop C) → List (V × WithTop C)
  | 0, d => d
  | k + 1, d => bfIter g verts k (relaxL g verts d)

/-- Reference shortest-path cost between two vertices by exhaustive
relaxation (`|verts| + 1` rounds cover every simple path, which is the
optimum when travel costs are nonnegative). -/
def refCost [Zero C] (g : Graph2D V C) (verts : List V) (start goal : V) :
    WithTop C :=
  dGet (bfIter g verts (verts.length + 1) [(start, 0)]) goal

end Reference

/-- A 5x5 reference grid with one diagonal wall (cells `(1,1)`, `(2,2)`,
`(3,3)`). -/
def grid55 : D2Q9 := D2Q9.new 5 5 (fun x y => x = y ∧ 1 ≤ x ∧ x ≤ 3)

/-- The capability view of the 5x5 diagonal-wall grid. -/
def G55 : Graph2D Node Q2 := grid55.toGraph

/-- Start cell `(0,0)` of the 5x5 instance. -/
def s55 : Node := ⟨0, 0, false⟩

/-- Goal cell `(4,4)` of the 5x5 instance. -/
def g55 : Node := ⟨4, 4, false⟩

/-- The path the embedded engine returns on the 5x5 instance. -/
def p55 : List Node :=
  [⟨0, 0, false⟩, ⟨1, 0, false⟩, ⟨2, 1, false⟩, ⟨3, 2, false⟩,
   ⟨4, 3, false⟩, ⟨4, 4, false⟩]

set_option maxRecDepth 10000 in
set_option maxHeartbeats 2000000 in
/-- Claim C3: with the benchmark's admissible and consistent heuristic
(chebyshev distance with unit/sqrt-2 euclidean step costs), the engine's
returned path on the 5x5 grid with one diagonal wall has total cost equal
to the true shortest-path cost computed by the independent exhaustive
relaxation reference (both equal `2 + 3·√2`). -/
theorem claim_C3 :
    a_star G55 s55 g55 400 400 = AStarResult.found p55 ∧
    ((pathCost G55 p55 : Q2) : WithTop Q2) = refCost G55 grid55.grid.flatten s55 g55 ∧
    pathCost G55 p55 = ⟨2, 3⟩ :=
  ⟨by decide, by decide, by decide⟩

end AStar

namespace AStar

section ReachLemmas

variable {V : Type} {C : Type} [DecidableEq V] [LinearOrder C] [Add C]

theorem chain_reflTransGen {R : V → V → Prop} :
    ∀ (l : List V) (a b : V), List.Chain' R l → l.head? = some a →
      l.getLast? = some b → Relation.ReflTransGen R a b := by
  intro l
  induction l with
  | nil => intro a b _ h; cases h
  | cons x xs ih =>
    intro a b hchain hhead hlast
    have hax : a = x := by
      simp only [List.head?_cons, Option.some.injEq] at hhead
      exact hhead.symm
    subst hax
    cases hxs : xs with
    | nil =>
      subst hxs
      simp only [List.getLast?_singleton, Option.some.injEq] at hlast
      rw [hlast]
    | cons y ys =>
      subst hxs
      have hR : R a y := (List.chain'_cons.mp hchain).1
      have hrest : List.Chain' R (y :: ys) := (List.chain'_cons.mp hchain).2
      have hlast2 : (y :: ys).getLast? = some b := by
        rw [List.getLast?_cons_cons] at hlast
        exact hlast
      exact Relation.ReflTransGen.head hR (ih y b hrest rfl hlast2)

theorem chain_transGen {R : V → V → Prop} (l : List V) (a b : V)
    (hchain : List.Chain' R l) (hhead : l.head? = some a)
    (hlast : l.getLast? = some b) (hlen : 2 ≤ l.length) :
    Relation.TransGen R a b := by
  cases l with
  | nil => cases hhead
  | cons x xs =>
    have hax : a = x := by
      simp only [List.head?_cons, Option.some.injEq] at hhead
      exact hhead.symm
    subst hax
    cases xs with
    | nil => simp at hlen
    | cons y ys =>
      have hR : R a y := (List.chain'_cons.mp hchain).1
      have hrest : List.Chain' R (y :: ys) := (List.chain'_cons.mp hchain).2
      have hlast2 : (y :: ys).getLast? = some b := by
        rw [List.getLast?_cons_cons] at hlast
        exact hlast
      exact Relation.TransGen.head' hR (chain_reflTransGen (y :: ys) y b hrest rfl hlast2)

end ReachLemmas

section ClosedInv

variable {V : Type} {C : Type} [DecidableEq V] [LinearOrder C] [Add C]

/-- The closure invariant: every recorded point that is no longer open has
had all its outgoing capability edges examined, and none of them led to
the goal; each led to a recorded point. -/
def Closed (g : Graph2D V C) (goal : V) (st : SearchState V C) : Prop :=
  ∀ v, (st.node_info v).isSome → v ∉ st.open_list →
    ∀ w, Edge g v w → w ≠ goal ∧ (st.node_info w).isSome

theorem gOf_ne_top_isSome {m : V → Option (NodeInfo V C)} {v : V}
    (h : gOf m v ≠ ⊤) : (m v).isSome := by
  unfold gOf at h
  cases hm : m v with
  | none => rw [hm] at h; simp at h
  | some i => rfl

theorem isSome_gOf {m : V → Option (NodeInfo V C)} {v : V} {i : NodeInfo V C}
    (h : m v = some i) : gOf m v = i.g_score := by
  unfold gOf; rw [h]; rfl

theorem curRec_processNeighbor {g : Graph2D V C} {goal cur n : V}
    {st : SearchState V C} (hC : CurRec cur st) :
    CurRec cur (processNeighbor g goal cur n st) := by
  obtain ⟨ci, hci, hfin⟩ := hC
  by_cases h : ci.g_score + (g.travel_cost cur n : WithTop C) < gOf st.node_info n
  · have htg : ci.g_score + (g.travel_cost cur n : WithTop C) ≠ ⊤ := by
      rw [Ne, WithTop.add_eq_top]
      push_neg
      exact ⟨hfin, WithTop.coe_ne_top⟩
    rw [processNeighbor_pos_rec hci h]
    by_cases hcn : cur = n
    · refine ⟨⟨some cur, ci.g_score + (g.travel_cost cur n : WithTop C),
        ci.g_score + (g.travel_cost cur n : WithTop C)
          + (g.heuristic n goal : WithTop C)⟩, ?_, htg⟩
      rw [hcn]
      exact infoInsert_self _ _ _
    · exact ⟨ci, (infoInsert_ne st.node_info n _ hcn).trans hci, hfin⟩
  · rw [processNeighbor_neg_rec hci hfin h]
    exact ⟨ci, hci, hfin⟩

theorem entryOrDefault_dom_mono {m : V → Option (NodeInfo V C)} {w : V}
    (h : (m w).isSome) (v : V) : ((entryOrDefault m v).2 w).isSome := by
  unfold entryOrDefault
  cases hm : m v with
  | some i => exact h
  | none =>
    show (infoInsert m v NodeInfo.dflt w).isSome
    by_cases hw : w = v
    · rw [hw, infoInsert_self]; rfl
    · rw [infoInsert_ne _ _ _ hw]; exact h

theorem processNeighbor_dom_mono {g : Graph2D V C} {goal cur n : V}
    {st : SearchState V C} {w : V} (h : (st.node_info w).isSome) :
    ((processNeighbor g goal cur n st).node_info w).isSome := by
  rw [processNeighbor_def]
  by_cases hg : ((entryOrDefault st.node_info cur).1.g_score +
      (g.travel_cost cur n : WithTop C) <
      (entryOrDefault (entryOrDefault st.node_info cur).2 n).1.g_score)
  · rw [if_pos hg]
    show (if w = n then _ else (entryOrDefault (entryOrDefault st.node_info cur).2 n).2 w).isSome
    by_cases hwn : w = n
    · rw [if_pos hwn]; rfl
    · rw [if_neg hwn]
      exact entryOrDefault_dom_mono (entryOrDefault_dom_mono h _) _
  · rw [if_neg hg]
    exact entryOrDefault_dom_mono (entryOrDefault_dom_mono h _) _

theorem processNeighbor_open_mono {g : Graph2D V C} {goal cur n : V}
    {st : SearchState V C} {w : V} (h : w ∈ st.open_list) :
    w ∈ (processNeighbor g goal cur n st).open_list := by
  rw [processNeighbor_open_eq]
  by_cases hg : (gOf st.node_info cur + (g.travel_cost cur n : WithTop C) <
      gOf st.node_info n)
  · rw [if_pos hg]
    unfold setInsert
    by_cases hn : n ∈ st.open_list
    · rwa [if_pos hn]
    · rw [if_neg hn]
      exact List.mem_append_left _ h
  · rwa [if_neg hg]

end ClosedInv

end AStar

namespace AStar

section ClosedPreserve

variable {V : Type} {C : Type} [DecidableEq V] [LinearOrder C] [Add C]

theorem processNeighbor_records_n {g : Graph2D V C} {goal cur n : V}
    {st : SearchState V C} (hC : CurRec cur st) :
    ((processNeighbor g goal cur n st).node_info n).isSome := by
  obtain ⟨ci, hci, hfin⟩ := hC
  have htg : ci.g_score + (g.travel_cost cur n : WithTop C) ≠ ⊤ := by
    rw [Ne, WithTop.add_eq_top]
    push_neg
    exact ⟨hfin, WithTop.coe_ne_top⟩
  by_cases h : ci.g_score + (g.travel_cost cur n : WithTop C) < gOf st.node_info n
  · rw [processNeighbor_pos_rec hci h]
    show (infoInsert st.node_info n _ n).isSome
    rw [infoInsert_self]
    rfl
  · have hsome : (st.node_info n).isSome := by
      apply gOf_ne_top_isSome
      intro htop
      have hle : gOf st.node_info n ≤ ci.g_score + (g.travel_cost cur n : WithTop C) :=
        le_of_not_lt h
      rw [htop] at hle
      exact htg (top_le_iff.mp hle)
    rw [processNeighbor_neg_rec hci hfin h]
    exact hsome

theorem expandNeighbors_inr_dom_mono {g : Graph2D V C} {goal cur : V} {rf : Nat}
    {l : List V} {st st2 : SearchState V C}
    (h : expandNeighbors g goal cur rf l st = Sum.inr st2) {w : V}
    (hw : (st.node_info w).isSome) : (st2.node_info w).isSome := by
  induction l generalizing st with
  | nil => rw [expandNeighbors] at h; cases h; exact hw
  | cons n rest ih =>
    rw [expandNeighbors] at h
    by_cases ht : g.path_is_transversable cur n
    · rw [if_pos ht] at h
      by_cases hg : n = goal
      · rw [if_pos hg] at h; cases h
      · rw [if_neg hg] at h
        exact ih h (processNeighbor_dom_mono hw)
    · rw [if_neg ht] at h
      exact ih h hw

theorem expandNeighbors_inr_open_mono {g : Graph2D V C} {goal cur : V} {rf : Nat}
    {l : List V} {st st2 : SearchState V C}
    (h : expandNeighbors g goal cur rf l st = Sum.inr st2) {w : V}
    (hw : w ∈ st.open_list) : w ∈ st2.open_list := by
  induction l generalizing st with
  | nil => rw [expandNeighbors] at h; cases h; exact hw
  | cons n rest ih =>
    rw [expandNeighbors] at h
    by_cases ht : g.path_is_transversable cur n
    · rw [if_pos ht] at h
      by_cases hg : n = goal
      · rw [if_pos hg] at h; cases h
      · rw [if_neg hg] at h
        exact ih h (processNeighbor_open_mono hw)
    · rw [if_neg ht] at h
      exact ih h hw

theorem expandNeighbors_inr_post {g : Graph2D V C} {goal cur : V} {rf : Nat}
    {l : List V} {st st2 : SearchState V C}
    (h : expandNeighbors g goal cur rf l st = Sum.inr st2) (hC : CurRec cur st) :
    ∀ w ∈ l, g.path_is_transversable cur w = true →
      w ≠ goal ∧ (st2.node_info w).isSome := by
  induction l generalizing st with
  | nil => intro w hw; cases hw
  | cons n rest ih =>
    intro w hw htw
    rw [expandNeighbors] at h
    by_cases ht : g.path_is_transversable cur n
    · rw [if_pos ht] at h
      by_cases hg : n = goal
      · rw [if_pos hg] at h; cases h
      · rw [if_neg hg] at h
        rcases List.mem_cons.mp hw with hw1 | hw1
        · subst hw1
          exact ⟨hg, expandNeighbors_inr_dom_mono h (processNeighbor_records_n hC)⟩
        · exact ih h (curRec_processNeighbor hC) w hw1 htw
    · rw [if_neg ht] at h
      rcases List.mem_cons.mp hw with hw1 | hw1
      · subst hw1
        rw [htw] at ht
        exact absurd rfl ht
      · exact ih h hC w hw1 htw

theorem expandNeighbors_inr_new_rec_open {g : Graph2D V C} {goal cur : V}
    {rf : Nat} {l : List V} {st st2 : SearchState V C}
    (h : expandNeighbors g goal cur rf l st = Sum.inr st2)
    (hC : CurRec cur st) {v : V}
    (hnew : st.node_info v = none) (hrec : (st2.node_info v).isSome) :
    v ∈ st2.open_list := by
  induction l generalizing st with
  | nil =>
    rw [expandNeighbors] at h
    cases h
    rw [hnew] at hrec
    cases hrec
  | cons n rest ih =>
    rw [expandNeighbors] at h
    by_cases ht : g.path_is_transversable cur n
    · rw [if_pos ht] at h
      by_cases hg : n = goal
      · rw [if_pos hg] at h; cases h
      · rw [if_neg hg] at h
        obtain ⟨ci, hci, hfin⟩ := hC
        by_cases hpos : ci.g_score + (g.travel_cost cur n : WithTop C) <
            gOf st.node_info n
        · by_cases hvn : v = n
          · subst hvn
            apply expandNeighbors_inr_open_mono h
            rw [processNeighbor_open_eq]
            have : gOf st.node_info cur = ci.g_score := isSome_gOf hci
            rw [this, if_pos hpos]
            exact setInsert_mem_self _ _
          · refine ih h (curRec_processNeighbor ⟨ci, hci, hfin⟩) ?_
            rw [processNeighbor_pos_rec hci hpos]
            show infoInsert st.node_info n _ v = none
            rw [infoInsert_ne _ _ _ hvn]
            exact hnew
        · refine ih h (curRec_processNeighbor ⟨ci, hci, hfin⟩) ?_
          rw [processNeighbor_neg_rec hci hfin hpos]
          exact hnew
    · rw [if_neg ht] at h
      exact ih h hC hnew

end ClosedPreserve

end AStar

namespace AStar

section NoPathSound

variable {V : Type} {C : Type} [DecidableEq V] [LinearOrder C] [Add C]

theorem closed_stepOnce_next {g : Graph2D V C} {goal start : V} {rf : Nat}
    {st st2 : SearchState V C} (hI : InvP g start st) (hCl : Closed g goal st)
    (h : stepOnce g goal rf st = StepResult.next st2) : Closed g goal st2 := by
  unfold stepOnce at h
  cases hop : st.open_list with
  | nil => rw [hop] at h; cases h
  | cons cmp rest =>
    rw [hop] at h
    simp only at h
    have hrec : ∀ v ∈ cmp :: rest, (st.node_info v).isSome := by
      intro v hv
      obtain ⟨i, hvi, _⟩ := hI.open_rec v (by rw [hop]; exact hv)
      rw [hvi]; rfl
    have hmap : (selectFold st.node_info cmp rest).2 = st.node_info :=
      selectFold_map_eq st.node_info cmp rest (hrec cmp (by simp))
        (fun v hv => hrec v (List.mem_cons_of_mem _ hv))
    rw [hmap] at h
    have hcurmem : (selectFold st.node_info cmp rest).1 ∈ cmp :: rest := by
      rcases selectFold_mem st.node_info cmp rest with h1 | h1
      · rw [h1]; simp
      · exact List.mem_cons_of_mem _ h1
    have hC : CurRec (selectFold st.node_info cmp rest).1
        (⟨(cmp :: rest).erase (selectFold st.node_info cmp rest).1, st.node_info⟩ :
          SearchState V C) :=
      hI.open_rec _ (by rw [hop]; exact hcurmem)
    cases hex : expandNeighbors g goal (selectFold st.node_info cmp rest).1 rf
        (g.neighbors (selectFold st.node_info cmp rest).1)
        ⟨(cmp :: rest).erase (selectFold st.node_info cmp rest).1, st.node_info⟩ with
    | inl r =>
      rw [hex] at h
      cases r with
      | none => exact absurd h (by simp)
      | some p => exact absurd h (by simp)
    | inr st3 =>
      rw [hex] at h
      cases h
      intro v hrec2 hnop2 w hEdge
      by_cases hvc : v = (selectFold st.node_info cmp rest).1
      · subst hvc
        exact expandNeighbors_inr_post hex hC _ hEdge.1 hEdge.2
      · by_cases hvrec : (st.node_info v).isSome
        · have hvnotopen : v ∉ st.open_list := by
            intro hvo
            apply hnop2
            apply expandNeighbors_inr_open_mono hex
            show v ∈ (cmp :: rest).erase (selectFold st.node_info cmp rest).1
            rw [List.mem_erase_of_ne hvc]
            rw [hop] at hvo
            exact hvo
          obtain ⟨hneq, hwrec⟩ := hCl v hvrec hvnotopen w hEdge
          exact ⟨hneq, expandNeighbors_inr_dom_mono hex hwrec⟩
        · have hnone : st.node_info v = none := Option.not_isSome_iff_eq_none.mp hvrec
          exact absurd (expandNeighbors_inr_new_rec_open hex hC hnone hrec2) hnop2

theorem stepOnce_next_dom_mono {g : Graph2D V C} {goal start : V} {rf : Nat}
    {st st2 : SearchState V C} (hI : InvP g start st)
    (h : stepOnce g goal rf st = StepResult.next st2) {w : V}
    (hw : (st.node_info w).isSome) : (st2.node_info w).isSome := by
  unfold stepOnce at h
  cases hop : st.open_list with
  | nil => rw [hop] at h; cases h
  | cons cmp rest =>
    rw [hop] at h
    simp only at h
    have hrec : ∀ v ∈ cmp :: rest, (st.node_info v).isSome := by
      intro v hv
      obtain ⟨i, hvi, _⟩ := hI.open_rec v (by rw [hop]; exact hv)
      rw [hvi]; rfl
    have hmap : (selectFold st.node_info cmp rest).2 = st.node_info :=
      selectFold_map_eq st.node_info cmp rest (hrec cmp (by simp))
        (fun v hv => hrec v (List.mem_cons_of_mem _ hv))
    rw [hmap] at h
    cases hex : expandNeighbors g goal (selectFold st.node_info cmp rest).1 rf
        (g.neighbors (selectFold st.node_info cmp rest).1)
        ⟨(cmp :: rest).erase (selectFold st.node_info cmp rest).1, st.node_info⟩ with
    | inl r =>
      rw [hex] at h
      cases r with
      | none => exact absurd h (by simp)
      | some p => exact absurd h (by simp)
    | inr st3 =>
      rw [hex] at h
      cases h
      exact expandNeighbors_inr_dom_mono hex hw

theorem aStarLoop_noPath {g : Graph2D V C} {goal : V} {rf fuel : Nat}
    {st : SearchState V C}
    (h : aStarLoop g goal rf fuel st = AStarResult.noPath) :
    ∃ st2, Steps g goal rf st st2 ∧
      stepOnce g goal rf st2 = StepResult.done AStarResult.noPath := by
  induction fuel generalizing st with
  | zero => rw [aStarLoop] at h; cases h
  | succ n ih =>
    rw [aStarLoop] at h
    cases hst : stepOnce g goal rf st with
    | done r =>
      rw [hst] at h
      cases h
      exact ⟨st, Relation.ReflTransGen.refl, hst⟩
    | next st3 =>
      rw [hst] at h
      obtain ⟨st2, hs, hd⟩ := ih h
      exact ⟨st2, Relation.ReflTransGen.head hst hs, hd⟩

theorem stepOnce_done_noPath {g : Graph2D V C} {goal : V} {rf : Nat}
    {st : SearchState V C}
    (h : stepOnce g goal rf st = StepResult.done AStarResult.noPath) :
    st.open_list = [] := by
  unfold stepOnce at h
  cases hop : st.open_list with
  | nil => rfl
  | cons cmp rest =>
    rw [hop] at h
    simp only at h
    cases hex : expandNeighbors g goal (selectFold st.node_info cmp rest).1 rf
        (g.neighbors (selectFold st.node_info cmp rest).1)
        ⟨(cmp :: rest).erase (selectFold st.node_info cmp rest).1,
         (selectFold st.node_info cmp rest).2⟩ with
    | inl r =>
      rw [hex] at h
      cases r with
      | none => exact absurd (StepResult.done.inj h) (by simp)
      | some p => exact absurd (StepResult.done.inj h) (by simp)
    | inr st3 => rw [hex] at h; cases h

theorem closed_init {D : Type} [LinearOrder D] [AddZeroClass D]
    (g : Graph2D V D) (start goal : V) :
    Closed g goal (initState g start goal) := by
  intro v hvrec hvnotopen
  exfalso
  apply hvnotopen
  have hvs : v = start := by
    by_cases hv : v = start
    · exact hv
    · exfalso
      have : (initState g start goal).node_info v = none := by
        unfold initState
        simp only
        rw [if_neg hv]
      rw [this] at hvrec
      cases hvrec
  rw [hvs]
  show start ∈ [start]
  simp

theorem invp_closed_steps {D : Type} [LinearOrder D] [AddZeroClass D]
    {g : Graph2D V D} {goal start : V} {rf : Nat} {st st2 : SearchState V D}
    (h : Steps g goal rf st st2) (hI : InvP g start st) (hCl : Closed g goal st) :
    InvP g start st2 ∧ Closed g goal st2 := by
  induction h with
  | refl => exact ⟨hI, hCl⟩
  | tail _ hstep ih =>
    exact ⟨invp_stepOnce_next ih.1 hstep, closed_stepOnce_next ih.1 ih.2 hstep⟩

theorem steps_dom_mono {D : Type} [LinearOrder D] [AddZeroClass D]
    {g : Graph2D V D} {goal start : V} {rf : Nat} {st st2 : SearchState V D}
    (h : Steps g goal rf st st2) (hI : InvP g start st) {w : V}
    (hw : (st.node_info w).isSome) : (st2.node_info w).isSome := by
  induction h with
  | refl => exact hw
  | tail hsteps hstep ih =>
    exact stepOnce_next_dom_mono (invp_steps hsteps hI) hstep ih

theorem a_star_noPath_not_reach {D : Type} [LinearOrder D] [AddZeroClass D]
    (g : Graph2D V D) (start goal : V) (fuel rf : Nat)
    (h : a_star g start goal fuel rf = AStarResult.noPath) :
    ¬ Reach g start goal := by
  obtain ⟨st2, hsteps, hdone⟩ := aStarLoop_noPath h
  have hop : st2.open_list = [] := stepOnce_done_noPath hdone
  obtain ⟨hI2, hCl2⟩ := invp_closed_steps hsteps (invp_init g start goal)
    (closed_init g start goal)
  have hstart0 : ((initState g start goal).node_info start).isSome := by
    unfold initState
    simp
  have hstart : (st2.node_info start).isSome :=
    steps_dom_mono hsteps (invp_init g start goal) hstart0
  intro hreach
  obtain ⟨u, hru, hedge⟩ := Relation.TransGen.tail'_iff.mp hreach
  have hrec_all : ∀ x, Relation.ReflTransGen (Edge g) start x →
      (st2.node_info x).isSome := by
    intro x hx
    induction hx with
    | refl => exact hstart
    | tail hab hbc ih =>
      exact (hCl2 _ ih (by rw [hop]; exact List.not_mem_nil _) _ hbc).2
  have hurec : (st2.node_info u).isSome := hrec_all u hru
  exact (hCl2 u hurec (by rw [hop]; exact List.not_mem_nil _) goal hedge).1 rfl

end NoPathSound

end AStar

namespace AStar

section FoundReach

variable {V : Type} [DecidableEq V]

/-- A successful search witnesses reachability of the goal through at
least one capability edge. -/
theorem a_star_found_reach {D : Type} [LinearOrder D] [AddZeroClass D]
    (g : Graph2D V D) (start goal : V) (fuel rf : Nat) (p : List V)
    (h : a_star g start goal fuel rf = AStarResult.found p) :
    Reach g start goal := by
  obtain ⟨hh, hl, hchain, hlen⟩ := a_star_found_spec g start goal fuel rf p h
  exact chain_transGen p start goal hchain hh hl hlen

end FoundReach

end AStar

namespace AStar

section SumsOfSection

/-- Closure of a finite list of edge weights under addition starting from
zero: the possible exact path costs. -/
inductive SumsOf (l : List ℚ) : ℚ → Prop
  | zero : SumsOf l 0
  | add {x w : ℚ} : SumsOf l x → w ∈ l → SumsOf l (x + w)

theorem sumsOf_nonneg {l : List ℚ} (hnn : ∀ w ∈ l, 0 ≤ w) {x : ℚ}
    (h : SumsOf l x) : 0 ≤ x := by
  induction h with
  | zero => exact le_refl 0
  | add hx hw ih => exact add_nonneg ih (hnn _ hw)

theorem sumsOf_nil {x : ℚ} (h : SumsOf [] x) : x = 0 := by
  induction h with
  | zero => rfl
  | add hx hw ih => cases hw

theorem sumsOf_cons_decomp {w : ℚ} {ws : List ℚ} {x : ℚ}
    (h : SumsOf (w :: ws) x) : ∃ (k : ℕ) (y : ℚ), SumsOf ws y ∧ x = k • w + y := by
  induction h with
  | zero => exact ⟨0, 0, SumsOf.zero, by simp⟩
  | add hx hw ih =>
    obtain ⟨k, y, hy, hxy⟩ := ih
    rcases List.mem_cons.mp hw with h1 | h1
    · refine ⟨k + 1, y, hy, ?_⟩
      rw [hxy, h1, succ_nsmul]
      ring
    · refine ⟨k, y + _, SumsOf.add hy h1, ?_⟩
      rw [hxy]
      ring

theorem sumsOf_bounded_finite {l : List ℚ} (hnn : ∀ w ∈ l, 0 ≤ w) (B : ℚ) :
    {x : ℚ | SumsOf l x ∧ x ≤ B}.Finite := by
  induction l generalizing B with
  | nil =>
    apply Set.Finite.subset (Set.finite_singleton 0)
    intro x hx
    rw [Set.mem_singleton_iff]
    exact sumsOf_nil hx.1
  | cons w ws ih =>
    have hw0 : 0 ≤ w := hnn w (by simp)
    have hwsnn : ∀ u ∈ ws, 0 ≤ u := fun u hu => hnn u (List.mem_cons_of_mem _ hu)
    rcases eq_or_lt_of_le hw0 with hw | hw
    · apply Set.Finite.subset (ih hwsnn B)
      intro x hx
      obtain ⟨k, y, hy, hxy⟩ := sumsOf_cons_decomp hx.1
      have : x = y := by rw [hxy, ← hw]; simp
      rw [Set.mem_setOf_eq, this] at hx ⊢
      exact ⟨hy, hx.2⟩
    · set K : ℕ := ⌈B / w⌉₊ with hK
      have hfin : (Set.Iic K ×ˢ {y : ℚ | SumsOf ws y ∧ y ≤ B}).Finite :=
        Set.Finite.prod (Set.finite_Iic K) (ih hwsnn B)
      apply Set.Finite.subset (Set.Finite.image (fun kv : ℕ × ℚ => kv.1 • w + kv.2) hfin)
      intro x hx
      obtain ⟨k, y, hy, hxy⟩ := sumsOf_cons_decomp hx.1
      have hy0 : 0 ≤ y := sumsOf_nonneg hwsnn hy
      have hkw : (k : ℚ) * w ≤ B := by
        have h1 : (k : ℚ) * w ≤ x := by
          rw [hxy, nsmul_eq_mul]
          linarith
        exact le_trans h1 hx.2
      have hkK : k ≤ K := by
        have h2 : (k : ℚ) ≤ B / w := (le_div_iff hw).mpr hkw
        have h3 : (k : ℚ) ≤ (K : ℚ) := le_trans h2 (Nat.le_ceil _)
        exact_mod_cast h3
      have hyB : y ≤ B := by
        have h4 : 0 ≤ (k : ℚ) * w := mul_nonneg (Nat.cast_nonneg k) hw0
        have h5 : y ≤ x := by
          rw [hxy, nsmul_eq_mul]
          linarith
        exact le_trans h5 hx.2
      exact ⟨(k, y), ⟨hkK, hy, hyB⟩, by rw [hxy]⟩

/-- The number of possible path costs strictly below `x`: the termination
rank of a bookkeeping `g_score`. -/
noncomputable def rankBelow (l : List ℚ) (x : ℚ) : ℕ :=
  Set.ncard {y : ℚ | SumsOf l y ∧ y < x}

theorem rankBelow_lt {l : List ℚ} (hnn : ∀ w ∈ l, 0 ≤ w) {x1 x2 : ℚ}
    (hx2 : SumsOf l x2) (h : x2 < x1) : rankBelow l x2 < rankBelow l x1 := by
  apply Set.ncard_lt_ncard
  · constructor
    · intro y hy
      exact ⟨hy.1, lt_trans hy.2 h⟩
    · intro hsub
      have := hsub ⟨hx2, h⟩
      exact absurd this.2 (lt_irrefl x2)
  · apply Set.Finite.subset (sumsOf_bounded_finite hnn x1)
    intro y hy
    exact ⟨hy.1, le_of_lt hy.2⟩

end SumsOfSection

end AStar

namespace AStar

section TermInvariants

variable {V : Type} [DecidableEq V]

/-- Parent relation of a bookkeeping map: the record of `a` points to `b`. -/
def pRel (m : V → Option (NodeInfo V ℚ)) (a b : V) : Prop :=
  ∃ i, m a = some i ∧ i.parent = some b

/-- The parent links never form a cycle. -/
def NoCycle (m : V → Option (NodeInfo V ℚ)) : Prop :=
  ∀ v, ¬ Relation.TransGen (pRel m) v v

/-- Every parent link keeps a cost certificate: the parent's `g_score`
plus the connecting travel cost is at most the child's `g_score`. -/
def Inv4 (g : Graph2D V ℚ) (m : V → Option (NodeInfo V ℚ)) : Prop :=
  ∀ v i p, m v = some i → i.parent = some p →
    ∃ jp, m p = some jp ∧
      jp.g_score + (g.travel_cost p v : WithTop ℚ) ≤ i.g_score

/-- The list of every travel cost of the finite graph. -/
noncomputable def weightList [Fintype V] (g : Graph2D V ℚ) : List ℚ :=
  (Finset.univ (α := V × V)).toList.map (fun uv => g.travel_cost uv.1 uv.2)

/-- Every finite recorded `g_score` is a possible path cost. -/
def GInS [Fintype V] (g : Graph2D V ℚ) (m : V → Option (NodeInfo V ℚ)) : Prop :=
  ∀ (v : V) (x : ℚ), gOf m v = (x : WithTop ℚ) → SumsOf (weightList g) x

theorem travel_cost_mem_weightList [Fintype V] (g : Graph2D V ℚ) (u v : V) :
    g.travel_cost u v ∈ weightList g := by
  unfold weightList
  exact List.mem_map.mpr ⟨(u, v), Finset.mem_toList.mpr (Finset.mem_univ _), rfl⟩

theorem weightList_nonneg [Fintype V] (g : Graph2D V ℚ)
    (hc : ∀ u v, 0 ≤ g.travel_cost u v) : ∀ w ∈ weightList g, 0 ≤ w := by
  intro w hw
  obtain ⟨uv, _, huv⟩ := List.mem_map.mp hw
  rw [← huv]
  exact hc uv.1 uv.2

theorem pChain_g_le {g : Graph2D V ℚ} {m : V → Option (NodeInfo V ℚ)}
    (h4 : Inv4 g m) (hc : ∀ u v, 0 ≤ g.travel_cost u v) {a b : V}
    (h : Relation.ReflTransGen (pRel m) a b) : gOf m b ≤ gOf m a := by
  induction h with
  | refl => exact le_rfl
  | tail hab hbc ih =>
    obtain ⟨i, hi, hp⟩ := hbc
    obtain ⟨jp, hjp, hle⟩ := h4 _ i _ hi hp
    have h1 : jp.g_score ≤ i.g_score := by
      refine le_trans ?_ hle
      exact le_add_of_nonneg_right (by exact_mod_cast hc _ _)
    calc gOf m _ = jp.g_score := isSome_gOf hjp
    _ ≤ i.g_score := h1
    _ = gOf m _ := (isSome_gOf hi).symm
    _ ≤ gOf m a := ih

theorem pRel_infoInsert_ne {m : V → Option (NodeInfo V ℚ)} {n : V}
    {nrec : NodeInfo V ℚ} {a b : V} (ha : a ≠ n) :
    pRel (infoInsert m n nrec) a b ↔ pRel m a b := by
  unfold pRel
  rw [infoInsert_ne _ _ _ ha]

theorem pRel_infoInsert_self {m : V → Option (NodeInfo V ℚ)} {n : V}
    {nrec : NodeInfo V ℚ} {b : V} :
    pRel (infoInsert m n nrec) n b ↔ nrec.parent = some b := by
  unfold pRel
  rw [infoInsert_self]
  constructor
  · rintro ⟨i, hi, hp⟩
    cases hi
    exact hp
  · intro hp
    exact ⟨nrec, rfl, hp⟩

theorem pathToN {m : V → Option (NodeInfo V ℚ)} {n : V} {nrec : NodeInfo V ℚ} :
    ∀ a, Relation.ReflTransGen (pRel (infoInsert m n nrec)) a n →
      Relation.ReflTransGen (pRel m) a n := by
  intro a h
  induction h using Relation.ReflTransGen.head_induction_on with
  | refl => exact Relation.ReflTransGen.refl
  | head hab hrest ih =>
    rename_i x c
    by_cases hxn : x = n
    · rw [hxn]
    · exact Relation.ReflTransGen.head ((pRel_infoInsert_ne hxn).mp hab) ih

theorem transGen_decomp {m : V → Option (NodeInfo V ℚ)} {n cur : V}
    {nrec : NodeInfo V ℚ} (hpar : nrec.parent = some cur) :
    ∀ a b, Relation.TransGen (pRel (infoInsert m n nrec)) a b →
      Relation.TransGen (pRel m) a b ∨
        (Relation.ReflTransGen (pRel (infoInsert m n nrec)) a n ∧
         Relation.ReflTransGen (pRel (infoInsert m n nrec)) cur b) := by
  intro a b h
  induction h using Relation.TransGen.head_induction_on with
  | base hab =>
    rename_i x
    by_cases hxn : x = n
    · subst hxn
      have hb : b = cur := by
        have := (pRel_infoInsert_self.mp hab).symm.trans hpar
        exact Option.some.inj this
      subst hb
      exact Or.inr ⟨Relation.ReflTransGen.refl, Relation.ReflTransGen.refl⟩
    · exact Or.inl (Relation.TransGen.single ((pRel_infoInsert_ne hxn).mp hab))
  | ih hab hrest ih =>
    rename_i x c
    by_cases hxn : x = n
    · subst hxn
      have hb : c = cur := by
        have := (pRel_infoInsert_self.mp hab).symm.trans hpar
        exact Option.some.inj this
      subst hb
      exact Or.inr ⟨Relation.ReflTransGen.refl, hrest.to_reflTransGen⟩
    · rcases ih with h1 | ⟨h1, h2⟩
      · exact Or.inl (Relation.TransGen.head ((pRel_infoInsert_ne hxn).mp hab) h1)
      · exact Or.inr ⟨Relation.ReflTransGen.head hab h1, h2⟩

end TermInvariants

end AStar

namespace AStar

section TermPreserve

variable {V : Type} [DecidableEq V] [Fintype V]

/-- The bundled invariant driving termination of the main loop. -/
def TermInv (g : Graph2D V ℚ) (start : V) (st : SearchState V ℚ) : Prop :=
  InvP g start st ∧ Inv4 g st.node_info ∧ NoCycle st.node_info ∧ GInS g st.node_info

theorem cur_ne_n_of_update {g : Graph2D V ℚ} {cur n : V}
    {st : SearchState V ℚ} {ci : NodeInfo V ℚ}
    (hc : ∀ u v, 0 ≤ g.travel_cost u v) (hci : st.node_info cur = some ci)
    (h : ci.g_score + (g.travel_cost cur n : WithTop ℚ) < gOf st.node_info n) :
    cur ≠ n := by
  intro he
  subst he
  rw [isSome_gOf hci] at h
  have h2 : ci.g_score ≤ ci.g_score + (g.travel_cost cur cur : WithTop ℚ) :=
    le_add_of_nonneg_right (by exact_mod_cast hc cur cur)
  exact absurd (lt_of_le_of_lt h2 h) (lt_irrefl _)

theorem term_inv_processNeighbor {g : Graph2D V ℚ} {goal start cur n : V}
    {st : SearchState V ℚ} (hc : ∀ u v, 0 ≤ g.travel_cost u v)
    (hmem : n ∈ g.neighbors cur) (ht : g.path_is_transversable cur n = true)
    (hT : TermInv g start st) (hC : CurRec cur st) :
    TermInv g start (processNeighbor g goal cur n st) ∧
      CurRec cur (processNeighbor g goal cur n st) := by
  obtain ⟨hI, h4, hnc, hS⟩ := hT
  refine ⟨⟨(invp_processNeighbor hmem ht hI hC).1, ?_⟩,
    (invp_processNeighbor hmem ht hI hC).2⟩
  obtain ⟨ci, hci, hfin⟩ := hC
  by_cases h : ci.g_score + (g.travel_cost cur n : WithTop ℚ) < gOf st.node_info n
  · have hcurn : cur ≠ n := cur_ne_n_of_update hc hci h
    rw [processNeighbor_pos_rec hci h]
    refine ⟨?_, ?_, ?_⟩
    · intro v i p hvi hp
      have hvi2 : (if v = n then some (⟨some cur,
          ci.g_score + (g.travel_cost cur n : WithTop ℚ),
          ci.g_score + (g.travel_cost cur n : WithTop ℚ)
            + (g.heuristic n goal : WithTop ℚ)⟩ : NodeInfo V ℚ)
          else st.node_info v) = some i := hvi
      by_cases hvn : v = n
      · rw [if_pos hvn] at hvi2
        cases hvi2
        have hpc : p = cur := by
          have := hp
          simp only at this
          exact Option.some.inj this.symm
        subst hpc
        subst hvn
        refine ⟨ci, ?_, ?_⟩
        · show (if p = v then _ else st.node_info p) = some ci
          rw [if_neg hcurn, hci]
        · exact le_rfl
      · rw [if_neg hvn] at hvi2
        obtain ⟨jp, hjp, hle⟩ := h4 v i p hvi2 hp
        by_cases hpn : p = n
        · subst hpn
          refine ⟨⟨some cur, ci.g_score + (g.travel_cost cur p : WithTop ℚ),
              ci.g_score + (g.travel_cost cur p : WithTop ℚ)
                + (g.heuristic p goal : WithTop ℚ)⟩, ?_, ?_⟩
          · show (if p = p then some ⟨some cur,
                ci.g_score + (g.travel_cost cur p : WithTop ℚ),
                ci.g_score + (g.travel_cost cur p : WithTop ℚ)
                  + (g.heuristic p goal : WithTop ℚ)⟩ else st.node_info p) = _
            rw [if_pos rfl]
          · have hlt : ci.g_score + (g.travel_cost cur p : WithTop ℚ) < jp.g_score := by
              rw [isSome_gOf hjp] at h
              exact h
            calc ci.g_score + (g.travel_cost cur p : WithTop ℚ)
                  + (g.travel_cost p v : WithTop ℚ)
                ≤ jp.g_score + (g.travel_cost p v : WithTop ℚ) :=
                  add_le_add_right (le_of_lt hlt) _
              _ ≤ i.g_score := hle
        · refine ⟨jp, ?_, hle⟩
          show (if p = n then _ else st.node_info p) = some jp
          rw [if_neg hpn]
          exact hjp
    · exact fun z hz => by
        rcases transGen_decomp rfl z z hz with hold | ⟨hzn, hcurz⟩
        · exact hnc z hold
        · have hcn2 : Relation.ReflTransGen (pRel st.node_info) cur n :=
            pathToN cur (hcurz.trans hzn)
          have hle : gOf st.node_info n ≤ gOf st.node_info cur := pChain_g_le h4 hc hcn2
          rw [isSome_gOf hci] at hle
          have h2 : ci.g_score ≤ ci.g_score + (g.travel_cost cur n : WithTop ℚ) :=
            le_add_of_nonneg_right (by exact_mod_cast hc cur n)
          exact absurd (lt_of_le_of_lt h2 (lt_of_lt_of_le h hle)) (lt_irrefl _)
    · intro v x hvx
      by_cases hvn : v = n
      · subst hvn
        have hvx2 : (⟨some cur, ci.g_score + (g.travel_cost cur v : WithTop ℚ),
            ci.g_score + (g.travel_cost cur v : WithTop ℚ)
              + (g.heuristic v goal : WithTop ℚ)⟩ : NodeInfo V ℚ).g_score
            = (x : WithTop ℚ) := by
          rw [← hvx]
          exact (isSome_gOf (infoInsert_self st.node_info v _)).symm
        simp only at hvx2
        cases hgc : ci.g_score with
        | top => rw [hgc] at hvx2; simp [WithTop.top_add] at hvx2
        | coe xc =>
          rw [hgc] at hvx2
          have hxc : SumsOf (weightList g) xc := by
            apply hS cur
            rw [isSome_gOf hci, hgc]
          have hx : x = xc + g.travel_cost cur v := by
            have : ((xc + g.travel_cost cur v : ℚ) : WithTop ℚ) = (x : WithTop ℚ) := by
              rw [← hvx2]
              exact (WithTop.coe_add _ _).symm
            exact_mod_cast this.symm
          rw [hx]
          exact SumsOf.add hxc (travel_cost_mem_weightList g cur v)
      · apply hS v
        rw [← hvx]
        symm
        unfold gOf
        show ((if v = n then _ else st.node_info v).map NodeInfo.g_score).getD ⊤ = _
        rw [if_neg hvn]
  · rw [processNeighbor_neg_rec hci hfin h]
    exact ⟨h4, hnc, hS⟩

end TermPreserve

end AStar

namespace AStar

section MeasureDefs

variable {V : Type} [DecidableEq V] [Fintype V]

/-- Rank of a recorded score: the number of possible exact path costs
strictly below it (`0` for `INFINITY`). -/
noncomputable def rankOfW (g : Graph2D V ℚ) : WithTop ℚ → ℕ :=
  fun x => x.recTopCoe 0 (rankBelow (weightList g))

/-- Measure of a bookkeeping map: how many points still score `INFINITY`,
then the total rank of the recorded scores. -/
noncomputable def mapMeasure (g : Graph2D V ℚ)
    (m : V → Option (NodeInfo V ℚ)) : ℕ × ℕ :=
  ((Finset.univ.filter (fun v => gOf m v = (⊤ : WithTop ℚ))).card,
   Finset.univ.sum (fun v => rankOfW g (gOf m v)))

/-- Lexicographic strict order on the map measure. -/
def MLex : ℕ × ℕ → ℕ × ℕ → Prop :=
  Prod.Lex (· < ·) (· < ·)

/-- Lexicographic strict order on the full loop measure. -/
def Lex3 : (ℕ × ℕ) × ℕ → (ℕ × ℕ) × ℕ → Prop :=
  Prod.Lex MLex (· < ·)

/-- The loop measure of a search state: map measure first, then the size
of the open list. -/
noncomputable def loopMeasure (g : Graph2D V ℚ) (st : SearchState V ℚ) :
    (ℕ × ℕ) × ℕ :=
  (mapMeasure g st.node_info, st.open_list.length)

end MeasureDefs

end AStar

namespace AStar

section MeasureLemmas

variable {V : Type} [DecidableEq V] [Fintype V]

theorem mlex_trans {a b c : ℕ × ℕ} (h1 : MLex a b) (h2 : MLex b c) :
    MLex a c := by
  unfold MLex at *
  rw [Prod.lex_def] at *
  rcases h1 with h1 | ⟨h1e, h1r⟩ <;> rcases h2 with h2 | ⟨h2e, h2r⟩
  · exact Or.inl (lt_trans h1 h2)
  · exact Or.inl (h2e ▸ h1)
  · exact Or.inl (h1e ▸ h2)
  · exact Or.inr ⟨h1e.trans h2e, lt_trans h1r h2r⟩

theorem mlex_wf : WellFounded (MLex) :=
  WellFounded.prod_lex (Nat.lt_wfRel.wf) (Nat.lt_wfRel.wf)

theorem lex3_wf : WellFounded (Lex3) :=
  WellFounded.prod_lex mlex_wf (Nat.lt_wfRel.wf)

theorem gOf_infoInsert_self {m : V → Option (NodeInfo V ℚ)} {n : V}
    {i : NodeInfo V ℚ} : gOf (infoInsert m n i) n = i.g_score :=
  isSome_gOf (infoInsert_self m n i)

theorem gOf_infoInsert_ne {m : V → Option (NodeInfo V ℚ)} {n v : V}
    {i : NodeInfo V ℚ} (h : v ≠ n) : gOf (infoInsert m n i) v = gOf m v := by
  unfold gOf
  rw [infoInsert_ne m n i h]

theorem rankOfW_coe (g : Graph2D V ℚ) (y : ℚ) :
    rankOfW g (y : WithTop ℚ) = rankBelow (weightList g) y := rfl

theorem mapMeasure_insert_lt {g : Graph2D V ℚ}
    {m : V → Option (NodeInfo V ℚ)} {n : V} {nrec : NodeInfo V ℚ} {y : ℚ}
    (hnn : ∀ w ∈ weightList g, 0 ≤ w)
    (hg : nrec.g_score = (y : WithTop ℚ)) (hy : SumsOf (weightList g) y)
    (hlt : nrec.g_score < gOf m n) :
    MLex (mapMeasure g (infoInsert m n nrec)) (mapMeasure g m) := by
  have hself : gOf (infoInsert m n nrec) n = (y : WithTop ℚ) := by
    rw [gOf_infoInsert_self, hg]
  unfold MLex mapMeasure
  rw [Prod.lex_def]
  cases hn : gOf m n with
  | top =>
    left
    show (Finset.univ.filter (fun v => gOf (infoInsert m n nrec) v = ⊤)).card <
      (Finset.univ.filter (fun v => gOf m v = ⊤)).card
    apply Finset.card_lt_card
    have hsub : (Finset.univ.filter (fun v => gOf (infoInsert m n nrec) v = ⊤)) ⊆
        (Finset.univ.filter (fun v => gOf m v = ⊤)) := by
      intro v hv
      rw [Finset.mem_filter] at hv ⊢
      refine ⟨Finset.mem_univ v, ?_⟩
      by_cases hvn : v = n
      · exfalso
        rw [hvn, hself] at hv
        exact WithTop.coe_ne_top hv.2
      · rw [← @gOf_infoInsert_ne V _ _ m n v nrec hvn]
        exact hv.2
    refine (Finset.ssubset_iff_of_subset hsub).mpr ⟨n, ?_, ?_⟩
    · rw [Finset.mem_filter]
      exact ⟨Finset.mem_univ n, hn⟩
    · rw [Finset.mem_filter]
      intro hmem
      rw [hself] at hmem
      exact WithTop.coe_ne_top hmem.2
  | coe x =>
    right
    have hyx : y < x := by
      rw [hg, hn] at hlt
      exact_mod_cast hlt
    constructor
    · show (Finset.univ.filter (fun v => gOf (infoInsert m n nrec) v = ⊤)).card =
        (Finset.univ.filter (fun v => gOf m v = ⊤)).card
      congr 1
      apply Finset.ext
      intro v
      rw [Finset.mem_filter, Finset.mem_filter]
      by_cases hvn : v = n
      · subst hvn
        rw [hself, hn]
        constructor
        · intro hv
          exact absurd hv.2 (WithTop.coe_ne_top)
        · intro hv
          exact absurd hv.2 (WithTop.coe_ne_top)
      · rw [gOf_infoInsert_ne hvn]
    · show Finset.univ.sum (fun v => rankOfW g (gOf (infoInsert m n nrec) v)) <
        Finset.univ.sum (fun v => rankOfW g (gOf m v))
      apply Finset.sum_lt_sum
      · intro v hv
        by_cases hvn : v = n
        · subst hvn
          rw [hself, hn, rankOfW_coe, rankOfW_coe]
          exact le_of_lt (rankBelow_lt hnn hy hyx)
        · rw [gOf_infoInsert_ne hvn]
      · refine ⟨n, Finset.mem_univ n, ?_⟩
        rw [hself, hn, rankOfW_coe, rankOfW_coe]
        exact rankBelow_lt hnn hy hyx

end MeasureLemmas

end AStar

namespace AStar

section TermStep

variable {V : Type} [DecidableEq V] [Fintype V]

theorem term_measure_processNeighbor {g : Graph2D V ℚ} {goal start cur n : V}
    {st : SearchState V ℚ} (hc : ∀ u v, 0 ≤ g.travel_cost u v)
    (hT : TermInv g start st) (hC : CurRec cur st) :
    processNeighbor g goal cur n st = st ∨
      MLex (mapMeasure g (processNeighbor g goal cur n st).node_info)
        (mapMeasure g st.node_info) := by
  obtain ⟨ci, hci, hfin⟩ := hC
  by_cases h : ci.g_score + (g.travel_cost cur n : WithTop ℚ) < gOf st.node_info n
  · right
    rw [processNeighbor_pos_rec hci h]
    obtain ⟨x0, hx0⟩ : ∃ x0 : ℚ, ci.g_score = (x0 : WithTop ℚ) := by
      cases hg : ci.g_score with
      | top => exact absurd hg hfin
      | coe q => exact ⟨q, rfl⟩
    have hx0S : SumsOf (weightList g) x0 :=
      hT.2.2.2 cur x0 (by rw [isSome_gOf hci, hx0])
    refine mapMeasure_insert_lt (weightList_nonneg g hc) ?_
      (SumsOf.add hx0S (travel_cost_mem_weightList g cur n)) h
    show ci.g_score + (g.travel_cost cur n : WithTop ℚ) =
      ((x0 + g.travel_cost cur n : ℚ) : WithTop ℚ)
    rw [hx0, ← WithTop.coe_add]
  · left
    exact processNeighbor_neg_rec hci hfin h

theorem term_expand_inr {g : Graph2D V ℚ} {goal start cur : V} {rf : Nat}
    {l : List V} {st st2 : SearchState V ℚ}
    (hc : ∀ u v, 0 ≤ g.travel_cost u v)
    (hsub : ∀ v ∈ l, v ∈ g.neighbors cur)
    (hT : TermInv g start st) (hC : CurRec cur st)
    (h : expandNeighbors g goal cur rf l st = Sum.inr st2) :
    (TermInv g start st2 ∧ CurRec cur st2) ∧
      (st2 = st ∨ MLex (mapMeasure g st2.node_info) (mapMeasure g st.node_info)) := by
  induction l generalizing st with
  | nil =>
    rw [expandNeighbors] at h
    cases h
    exact ⟨⟨hT, hC⟩, Or.inl rfl⟩
  | cons n rest ih =>
    rw [expandNeighbors] at h
    by_cases ht : g.path_is_transversable cur n
    · rw [if_pos ht] at h
      by_cases hg : n = goal
      · rw [if_pos hg] at h
        cases h
      · rw [if_neg hg] at h
        have hmem : n ∈ g.neighbors cur := hsub n (by simp)
        obtain ⟨hT1, hC1⟩ := term_inv_processNeighbor hc hmem ht hT hC
        have hdec := @term_measure_processNeighbor V _ _ g goal start cur n st hc hT hC
        obtain ⟨hinv2, hdis2⟩ :=
          ih (fun v hv => hsub v (List.mem_cons_of_mem _ hv)) hT1 hC1 h
        refine ⟨hinv2, ?_⟩
        rcases hdec with heq | hlt1
        · rw [heq] at hdis2
          exact hdis2
        · rcases hdis2 with heq2 | hlt2
          · rw [heq2]
            exact Or.inr hlt1
          · exact Or.inr (mlex_trans hlt2 hlt1)
    · rw [if_neg ht] at h
      exact ih (fun v hv => hsub v (List.mem_cons_of_mem _ hv)) hT hC h

theorem term_stepOnce_next {g : Graph2D V ℚ} {goal start : V} {rf : Nat}
    {st st2 : SearchState V ℚ} (hc : ∀ u v, 0 ≤ g.travel_cost u v)
    (hT : TermInv g start st)
    (h : stepOnce g goal rf st = StepResult.next st2) :
    TermInv g start st2 ∧ Lex3 (loopMeasure g st2) (loopMeasure g st) := by
  have hI := hT.1
  unfold stepOnce at h
  cases hop : st.open_list with
  | nil => rw [hop] at h; cases h
  | cons cmp rest =>
    rw [hop] at h
    simp only at h
    have hrec : ∀ v ∈ cmp :: rest, (st.node_info v).isSome := by
      intro v hv
      obtain ⟨i, hvi, _⟩ := hI.open_rec v (by rw [hop]; exact hv)
      rw [hvi]; rfl
    have hmap : (selectFold st.node_info cmp rest).2 = st.node_info :=
      selectFold_map_eq st.node_info cmp rest (hrec cmp (by simp))
        (fun v hv => hrec v (List.mem_cons_of_mem _ hv))
    rw [hmap] at h
    have hcurmem : (selectFold st.node_info cmp rest).1 ∈ cmp :: rest := by
      rcases selectFold_mem st.node_info cmp rest with h1 | h1
      · rw [h1]; simp
      · exact List.mem_cons_of_mem _ h1
    have hCE : CurRec (selectFold st.node_info cmp rest).1
        (⟨(cmp :: rest).erase (selectFold st.node_info cmp rest).1, st.node_info⟩ :
          SearchState V ℚ) :=
      hI.open_rec _ (by rw [hop]; exact hcurmem)
    have hTE : TermInv g start
        (⟨(cmp :: rest).erase (selectFold st.node_info cmp rest).1, st.node_info⟩ :
          SearchState V ℚ) := by
      refine ⟨⟨?_, hI.parent_none, hI.parent_edge⟩, hT.2.1, hT.2.2.1, hT.2.2.2⟩
      intro v hv
      exact hI.open_rec v (by rw [hop]; exact List.mem_of_mem_erase hv)
    cases hex : expandNeighbors g goal (selectFold st.node_info cmp rest).1 rf
        (g.neighbors (selectFold st.node_info cmp rest).1)
        ⟨(cmp :: rest).erase (selectFold st.node_info cmp rest).1, st.node_info⟩ with
    | inl r =>
      rw [hex] at h
      cases r with
      | none => exact absurd h (by simp)
      | some p => exact absurd h (by simp)
    | inr st3 =>
      rw [hex] at h
      cases h
      obtain ⟨⟨hT2, _⟩, hdis⟩ := term_expand_inr hc (fun v hv => hv) hTE hCE hex
      refine ⟨hT2, ?_⟩
      have hlen : ((cmp :: rest).erase (selectFold st.node_info cmp rest).1).length <
          st.open_list.length := by
        rw [hop, List.length_erase_of_mem hcurmem, List.length_cons]
        omega
      rcases hdis with heq | hlt
      · rw [heq]
        unfold Lex3 loopMeasure
        exact Prod.Lex.right _ hlen
      · unfold Lex3 loopMeasure
        exact Prod.Lex.left _ _ hlt

end TermStep

end AStar

namespace AStar

section TermDone

variable {V : Type} [DecidableEq V] [Fintype V]

theorem ancestors_ssubset {m : V → Option (NodeInfo V ℚ)} (hnc : NoCycle m)
    {cur p : V} {info : NodeInfo V ℚ} (hci : m cur = some info)
    (hp : info.parent = some p) :
    {w | Relation.TransGen (pRel m) p w} ⊂
      {w | Relation.TransGen (pRel m) cur w} := by
  have hstep : pRel m cur p := ⟨info, hci, hp⟩
  rw [Set.ssubset_def]
  constructor
  · intro w hw
    exact Relation.TransGen.head hstep hw
  · intro hsub
    have hpcur : p ∈ {w | Relation.TransGen (pRel m) cur w} :=
      Relation.TransGen.single hstep
    exact hnc p (hsub hpcur)

theorem reconstructChain_isSome {m : V → Option (NodeInfo V ℚ)}
    (hnc : NoCycle m) :
    ∀ (fuel : Nat) (cur : V) (path : List V),
      Set.ncard {w | Relation.TransGen (pRel m) cur w} < fuel →
      (reconstructChain m fuel cur path).isSome := by
  intro fuel
  induction fuel with
  | zero => intro cur path hlt; omega
  | succ f ih =>
    intro cur path hlt
    cases hci : m cur with
    | none => rw [reconstructChain, hci]; rfl
    | some info =>
      cases hp : info.parent with
      | none =>
        rw [reconstructChain, hci]
        simp [hp]
      | some p =>
        rw [reconstructChain, hci]
        simp only [hp]
        apply ih
        have hss := ancestors_ssubset hnc hci hp
        have hfin : {w | Relation.TransGen (pRel m) cur w}.Finite :=
          Set.Finite.subset Set.finite_univ (Set.subset_univ _)
        have h1 : Set.ncard {w | Relation.TransGen (pRel m) p w} <
            Set.ncard {w | Relation.TransGen (pRel m) cur w} :=
          Set.ncard_lt_ncard hss hfin
        omega

theorem ancestors_ncard_le (m : V → Option (NodeInfo V ℚ)) (cur : V) :
    Set.ncard {w | Relation.TransGen (pRel m) cur w} ≤ Fintype.card V := by
  have h := Set.ncard_le_ncard
    (Set.subset_univ {w | Relation.TransGen (pRel m) cur w}) Set.finite_univ
  rwa [Set.ncard_univ, Nat.card_eq_fintype_card] at h

theorem buildPath_isSome {m : V → Option (NodeInfo V ℚ)} (hnc : NoCycle m)
    (cur goal : V) :
    (buildPath m (Fintype.card V + 1) cur goal).isSome := by
  unfold buildPath
  have h := reconstructChain_isSome hnc (Fintype.card V + 1) cur [cur]
    (by have := ancestors_ncard_le m cur; omega)
  cases hrc : reconstructChain m (Fintype.card V + 1) cur [cur] with
  | none => rw [hrc] at h; exact absurd h (by simp)
  | some p => rfl

theorem term_expand_inl_ne_none {g : Graph2D V ℚ} {goal start cur : V}
    {l : List V} {st : SearchState V ℚ} {r : Option (List V)}
    (hc : ∀ u v, 0 ≤ g.travel_cost u v)
    (hsub : ∀ v ∈ l, v ∈ g.neighbors cur)
    (hT : TermInv g start st) (hC : CurRec cur st)
    (h : expandNeighbors g goal cur (Fintype.card V + 1) l st = Sum.inl r) :
    r ≠ none := by
  induction l generalizing st with
  | nil => rw [expandNeighbors] at h; cases h
  | cons n rest ih =>
    rw [expandNeighbors] at h
    by_cases ht : g.path_is_transversable cur n
    · rw [if_pos ht] at h
      by_cases hg : n = goal
      · rw [if_pos hg] at h
        have hr := Sum.inl.inj h
        rw [← hr]
        intro hnone
        have hs := buildPath_isSome hT.2.2.1 cur goal
        rw [hnone] at hs
        exact absurd hs (by simp)
      · rw [if_neg hg] at h
        obtain ⟨hT1, hC1⟩ :=
          term_inv_processNeighbor hc (hsub n (by simp)) ht hT hC
        exact ih (fun v hv => hsub v (List.mem_cons_of_mem _ hv)) hT1 hC1 h
    · rw [if_neg ht] at h
      exact ih (fun v hv => hsub v (List.mem_cons_of_mem _ hv)) hT hC h

theorem term_stepOnce_done {g : Graph2D V ℚ} {goal start : V}
    {st : SearchState V ℚ} {r : AStarResult V}
    (hc : ∀ u v, 0 ≤ g.travel_cost u v) (hT : TermInv g start st)
    (h : stepOnce g goal (Fintype.card V + 1) st = StepResult.done r) :
    r ≠ AStarResult.outOfFuel := by
  have hI := hT.1
  unfold stepOnce at h
  cases hop : st.open_list with
  | nil =>
    rw [hop] at h
    cases h
    simp
  | cons cmp rest =>
    rw [hop] at h
    simp only at h
    have hrec : ∀ v ∈ cmp :: rest, (st.node_info v).isSome := by
      intro v hv
      obtain ⟨i, hvi, _⟩ := hI.open_rec v (by rw [hop]; exact hv)
      rw [hvi]; rfl
    have hmap : (selectFold st.node_info cmp rest).2 = st.node_info :=
      selectFold_map_eq st.node_info cmp rest (hrec cmp (by simp))
        (fun v hv => hrec v (List.mem_cons_of_mem _ hv))
    rw [hmap] at h
    have hcurmem : (selectFold st.node_info cmp rest).1 ∈ cmp :: rest := by
      rcases selectFold_mem st.node_info cmp rest with h1 | h1
      · rw [h1]; simp
      · exact List.mem_cons_of_mem _ h1
    have hCE : CurRec (selectFold st.node_info cmp rest).1
        (⟨(cmp :: rest).erase (selectFold st.node_info cmp rest).1, st.node_info⟩ :
          SearchState V ℚ) :=
      hI.open_rec _ (by rw [hop]; exact hcurmem)
    have hTE : TermInv g start
        (⟨(cmp :: rest).erase (selectFold st.node_info cmp rest).1, st.node_info⟩ :
          SearchState V ℚ) := by
      refine ⟨⟨?_, hI.parent_none, hI.parent_edge⟩, hT.2.1, hT.2.2.1, hT.2.2.2⟩
      intro v hv
      exact hI.open_rec v (by rw [hop]; exact List.mem_of_mem_erase hv)
    cases hex : expandNeighbors g goal (selectFold st.node_info cmp rest).1
        (Fintype.card V + 1) (g.neighbors (selectFold st.node_info cmp rest).1)
        ⟨(cmp :: rest).erase (selectFold st.node_info cmp rest).1, st.node_info⟩ with
    | inl ro =>
      rw [hex] at h
      have hne := term_expand_inl_ne_none hc (fun v hv => hv) hTE hCE hex
      cases ro with
      | none => exact absurd rfl hne
      | some p =>
        cases h
        simp
    | inr st3 =>
      rw [hex] at h
      cases h

end TermDone

end AStar

namespace AStar

section TermMain

variable {V : Type} [DecidableEq V] [Fintype V]

theorem pRel_init_empty (g : Graph2D V ℚ) (start goal : V) :
    ∀ a b : V, ¬ pRel (initState g start goal).node_info a b := by
  rintro a b ⟨i, hi, hp⟩
  unfold initState at hi
  simp only at hi
  by_cases has : a = start
  · rw [if_pos has] at hi
    cases hi
    cases hp
  · rw [if_neg has] at hi
    cases hi

theorem term_inv_init (g : Graph2D V ℚ) (start goal : V) :
    TermInv g start (initState g start goal) := by
  refine ⟨invp_init g start goal, ?_, ?_, ?_⟩
  · intro v i p hvi hpar
    exact absurd ⟨i, hvi, hpar⟩ (pRel_init_empty g start goal v p)
  · intro v hv
    cases hv with
    | single h => exact pRel_init_empty g start goal _ _ h
    | tail h1 h2 => exact pRel_init_empty g start goal _ _ h2
  · intro v x hvx
    unfold initState gOf at hvx
    simp only at hvx
    by_cases hvs : v = start
    · rw [if_pos hvs] at hvx
      have h0 : ((0 : ℚ) : WithTop ℚ) = (x : WithTop ℚ) := hvx
      have hx0 : (0 : ℚ) = x := by exact_mod_cast h0
      rw [← hx0]
      exact SumsOf.zero
    · rw [if_neg hvs] at hvx
      exact absurd hvx (Ne.symm WithTop.coe_ne_top)

theorem loop_terminates {g : Graph2D V ℚ} {start goal : V}
    (hc : ∀ u v, 0 ≤ g.travel_cost u v) :
    ∀ st : SearchState V ℚ, TermInv g start st →
      ∃ fuel, aStarLoop g goal (Fintype.card V + 1) fuel st ≠
        AStarResult.outOfFuel := by
  have hwf : WellFounded (InvImage Lex3 (loopMeasure g)) :=
    InvImage.wf _ lex3_wf
  intro st
  refine @WellFounded.induction _ _ hwf
    (fun s => TermInv g start s →
      ∃ fuel, aStarLoop g goal (Fintype.card V + 1) fuel s ≠
        AStarResult.outOfFuel) st ?_
  intro s ih hT
  cases hstep : stepOnce g goal (Fintype.card V + 1) s with
  | done r =>
    refine ⟨0 + 1, ?_⟩
    simp only [aStarLoop, hstep]
    exact term_stepOnce_done hc hT hstep
  | next st2 =>
    obtain ⟨hT2, hdec⟩ := term_stepOnce_next hc hT hstep
    obtain ⟨fuel2, hf2⟩ := ih st2 hdec hT2
    refine ⟨fuel2 + 1, ?_⟩
    simp only [aStarLoop, hstep]
    exact hf2

end TermMain

end AStar

namespace AStar

/-- A one-point rational graph used to instantiate the termination and
no-path theorems at a concrete input. -/
def gC5 : Graph2D (Fin 1) ℚ :=
  { neighbors := fun _ => [],
    path_is_transversable := fun _ _ => true,
    has_vertex := fun _ => true,
    heuristic := fun _ _ => 0,
    travel_cost := fun _ _ => 0 }

section ClaimC5

variable {V : Type} [DecidableEq V] [Fintype V]

/-- C5: for every finite graph (finitely many points, so finitely many
reachable points and finite neighbor lists) with non-negative travel
costs, the main loop of `a_star` terminates: some fuel bound (together
with the reconstruction bound `|V| + 1`) makes the fueled embedding
return an actual result rather than `outOfFuel`, i.e. the Rust loop never
runs forever, even on graphs with cycles. -/
theorem claim_C5 (g : Graph2D V ℚ) (start goal : V)
    (hc : ∀ u v, 0 ≤ g.travel_cost u v) :
    ∃ fuel rf : Nat, a_star g start goal fuel rf ≠ AStarResult.outOfFuel := by
  obtain ⟨fuel, hf⟩ :=
    loop_terminates hc (initState g start goal) (term_inv_init g start goal)
  exact ⟨fuel, Fintype.card V + 1, hf⟩

end ClaimC5

/-- Witness for C5 at a concrete input: the one-point graph, with the
non-negativity hypothesis discharged. -/
theorem claim_C5_witness :
    ∃ fuel rf : Nat, a_star gC5 0 0 fuel rf ≠ AStarResult.outOfFuel :=
  claim_C5 gC5 0 0 (fun _ _ => le_refl 0)

section ClaimC4

variable {V : Type} [DecidableEq V] [Fintype V]

/-- C4: on a finite graph with non-negative costs, `Some(path)` is
returned only when the goal is reachable from the start through
transversable neighbor steps, `None` is returned only when it is not, and
for sufficient fuel the run completes and returns `None` exactly when no
path exists; no other negative outcome is possible (the embedding's
`outOfFuel` marks only an unfinished run, never a returned value). -/
theorem claim_C4 (g : Graph2D V ℚ) (start goal : V)
    (hc : ∀ u v, 0 ≤ g.travel_cost u v) :
    (∀ fuel rf p, a_star g start goal fuel rf = AStarResult.found p →
        Reach g start goal) ∧
    (∀ fuel rf, a_star g start goal fuel rf = AStarResult.noPath →
        ¬ Reach g start goal) ∧
    (∃ fuel rf, a_star g start goal fuel rf ≠ AStarResult.outOfFuel ∧
        (a_star g start goal fuel rf = AStarResult.noPath ↔
          ¬ Reach g start goal)) := by
  refine ⟨fun fuel rf p h => a_star_found_reach g start goal fuel rf p h,
    fun fuel rf h => a_star_noPath_not_reach g start goal fuel rf h, ?_⟩
  obtain ⟨fuel, hf⟩ :=
    loop_terminates hc (initState g start goal) (term_inv_init g start goal)
  refine ⟨fuel, Fintype.card V + 1, hf, ?_, ?_⟩
  · exact fun h => a_star_noPath_not_reach g start goal _ _ h
  · intro hnr
    cases hres : a_star g start goal fuel (Fintype.card V + 1) with
    | found p =>
      exact absurd (a_star_found_reach g start goal _ _ p hres) hnr
    | noPath => rfl
    | outOfFuel => exact absurd hres hf

end ClaimC4

/-- Witness for C4 at a concrete input: the one-point graph, with the
non-negativity hypothesis discharged. -/
theorem claim_C4_witness :
    (∀ fuel rf p, a_star gC5 0 0 fuel rf = AStarResult.found p →
        Reach gC5 0 0) ∧
    (∀ fuel rf, a_star gC5 0 0 fuel rf = AStarResult.noPath →
        ¬ Reach gC5 0 0) ∧
    (∃ fuel rf, a_star gC5 0 0 fuel rf ≠ AStarResult.outOfFuel ∧
        (a_star gC5 0 0 fuel rf = AStarResult.noPath ↔ ¬ Reach gC5 0 0)) :=
  claim_C4 gC5 0 0 (fun _ _ => le_refl 0)

end AStar
